import Mathlib

/-!
Verification development for the arena allocator in `OSProject.py`
(`SimpleMemoryAllocator`).  The Python class is shallowly embedded:

* a block `(start, size)` is a pair of integers describing the half-open
  interval `[start, start + size)`;
* the Python dict `self.allocations` (insertion ordered, keys unique) is an
  association list, with insert/lookup/pop operating on the first matching key;
* `allocate`, `free`, `_merge_blocks`, `get_stats` and `evaluate_algorithm`
  are translated line by line; the random draws of `evaluate_algorithm` are
  supplied by an explicit list of `RandStep` oracles;
* `self.free_blocks.sort()` (lexicographic tuple sort, stable) is modelled by
  `List.insertionSort` with the lexicographic order on pairs.
-/

namespace MemAlloc

/-- A block `(start, size)`: the half-open interval `[start, start + size)`
of the simulated linear address space.  Python integers are unbounded, so
`Int` is the faithful carrier. -/
abbrev Block := Int × Int

/-- Placement strategy: `algorithm == 'best'` takes the first branch of
`allocate`, anything else takes the second (worst-fit) branch. -/
inductive Alg
  | best
  | worst
deriving DecidableEq, Repr

/-- State of a `SimpleMemoryAllocator` instance: `self.total`,
`self.free_blocks`, `self.allocations` (as an ordered association list) and
`self.next_id`. -/
structure AllocState where
  total : Int
  free_blocks : List Block
  allocations : List (Nat × Block)
  next_id : Nat
deriving DecidableEq, Repr

/-- `__init__(total_memory)`: one free block spanning the arena, no
allocations, ids start at 1. -/
def initState (total_memory : Int) : AllocState :=
  { total := total_memory
    free_blocks := [(0, total_memory)]
    allocations := []
    next_id := 1 }

/-- `alloc_id in self.allocations` for the association-list model. -/
def dictMem (k : Nat) (l : List (Nat × Block)) : Bool :=
  l.any fun p => p.1 == k

/-- `self.allocations[k]` (first entry with key `k`). -/
def dictGet (k : Nat) : List (Nat × Block) → Option Block
  | [] => none
  | p :: rest => if p.1 = k then some p.2 else dictGet k rest

/-- `self.allocations.pop(k)`: drop the (unique) entry with key `k`. -/
def dictPop (k : Nat) : List (Nat × Block) → List (Nat × Block)
  | [] => []
  | p :: rest => if p.1 = k then rest else p :: dictPop k rest

/-- `self.allocations[k] = v`: replace the entry with key `k` in place, or
append a new entry (Python dicts preserve insertion order). -/
def dictInsert (k : Nat) (v : Block) : List (Nat × Block) → List (Nat × Block)
  | [] => [(k, v)]
  | p :: rest => if p.1 = k then (k, v) :: rest else p :: dictInsert k v rest

/-- One step of the best-fit loop.  The source tests
`block_size >= size and (best is None or block_size < best[1])`; since
`best = (i, start, block_size)`, the subscript `best[1]` is the incumbent's
START coordinate, and that is what is embedded here (`b.2.1`). -/
def bestUpd (size : Int) (best : Option (Nat × Int × Int)) (i : Nat) (st bsz : Int) :
    Option (Nat × Int × Int) :=
  match best with
  | none => if size ≤ bsz then some (i, st, bsz) else none
  | some b => if size ≤ bsz ∧ bsz < b.2.1 then some (i, st, bsz) else some b

/-- One step of the worst-fit loop: `block_size >= size and (best is None or
block_size > best[2])`; `best[2]` is the incumbent's size (`b.2.2`). -/
def worstUpd (size : Int) (best : Option (Nat × Int × Int)) (i : Nat) (st bsz : Int) :
    Option (Nat × Int × Int) :=
  match best with
  | none => if size ≤ bsz then some (i, st, bsz) else none
  | some b => if size ≤ bsz ∧ b.2.2 < bsz then some (i, st, bsz) else some b

/-- The `for i, (start, block_size) in enumerate(self.free_blocks)` loop of
the best-fit branch. -/
def bestScan (size : Int) : List Block → Nat → Option (Nat × Int × Int) →
    Option (Nat × Int × Int)
  | [], _, best => best
  | (st, bsz) :: rest, i, best => bestScan size rest (i + 1) (bestUpd size best i st bsz)

/-- The scan loop of the worst-fit branch. -/
def worstScan (size : Int) : List Block → Nat → Option (Nat × Int × Int) →
    Option (Nat × Int × Int)
  | [], _, best => best
  | (st, bsz) :: rest, i, best => worstScan size rest (i + 1) (worstUpd size best i st bsz)

/-- Candidate search of `allocate` for the chosen strategy. -/
def findBlock (alg : Alg) (size : Int) (blocks : List Block) : Option (Nat × Int × Int) :=
  match alg with
  | Alg.best => bestScan size blocks 0 none
  | Alg.worst => worstScan size blocks 0 none

/-- `allocate(size, algorithm)`: pick a block, pop it, push the remainder (if
positive), record the allocation under `next_id`, bump the counter.  Returns
the Python return value (`None` or the id) with the post state. -/
def allocate (s : AllocState) (size : Int) (alg : Alg) : Option Nat × AllocState :=
  match findBlock alg size s.free_blocks with
  | none => (none, s)
  | some (i, st, bsz) =>
    let fb := s.free_blocks.eraseIdx i
    let remaining := bsz - size
    let fb' := if 0 < remaining then fb ++ [(st + size, remaining)] else fb
    (some s.next_id,
      { s with
          free_blocks := fb'
          allocations := dictInsert s.next_id (st, size) s.allocations
          next_id := s.next_id + 1 })

/-- Lexicographic order on `(start, size)` pairs: Python's tuple `<=`. -/
def lexLe (a b : Block) : Prop :=
  a.1 < b.1 ∨ (a.1 = b.1 ∧ a.2 ≤ b.2)

instance : DecidableRel lexLe := fun a b => by
  unfold lexLe; infer_instance

instance : IsTotal Block lexLe := by
  constructor; intro a b; unfold lexLe; omega

instance : IsTrans Block lexLe := by
  constructor; intro a b c; unfold lexLe; omega

/-- `self.free_blocks.sort()` (stable, lexicographic on tuples). -/
def sortBlocks (l : List Block) : List Block :=
  l.insertionSort lexLe

/-- The merging loop of `_merge_blocks`: `merged[-1]` is carried as `last`
and emitted when the next block does not start exactly at its end. -/
def mergeGo (last : Block) : List Block → List Block
  | [] => [last]
  | c :: cs =>
    if last.1 + last.2 = c.1 then mergeGo (last.1, last.2 + c.2) cs
    else last :: mergeGo c cs

/-- `_merge_blocks()`: sort by start address, then coalesce adjacent blocks. -/
def mergeBlocks (l : List Block) : List Block :=
  match sortBlocks l with
  | [] => []
  | b :: rest => mergeGo b rest

/-- `free(alloc_id)`: `False` for an unknown id, otherwise pop the
allocation, append its block to the free list and coalesce. -/
def free (s : AllocState) (alloc_id : Nat) : Bool × AllocState :=
  match dictGet alloc_id s.allocations with
  | none => (false, s)
  | some b =>
    (true,
      { s with
          allocations := dictPop alloc_id s.allocations
          free_blocks := mergeBlocks (s.free_blocks ++ [b]) })

/-- Sum of the `size` components of a block list. -/
def sumSizes (l : List Block) : Int :=
  (l.map Prod.snd).sum

/-- The intervals held by live allocations, in dict order. -/
def allocBlocks (s : AllocState) : List Block :=
  s.allocations.map Prod.snd

/-- Result record of `get_stats`. -/
structure Stats where
  total : Int
  used : Int
  free : Int
  fragments : Nat
  allocations : Nat
  fragmentation : Nat
deriving DecidableEq, Repr

/-- `get_stats()`: `fragmentation` is `len(free_blocks) - 1` when there is
more than one free block, else `0`. -/
def get_stats (s : AllocState) : Stats :=
  { total := s.total
    used := sumSizes (allocBlocks s)
    free := sumSizes s.free_blocks
    fragments := s.free_blocks.length
    allocations := s.allocations.length
    fragmentation := if 1 < s.free_blocks.length then s.free_blocks.length - 1 else 0 }

/-- Random draws consumed by one iteration of `evaluate_algorithm`:
`coin` stands for `random.random() < 0.7`, `size` for `random.randint(10, 100)`
and `pick` selects (mod the number of keys) the victim of `random.choice`. -/
structure RandStep where
  coin : Bool
  size : Int
  pick : Nat
deriving DecidableEq, Repr

/-- One iteration of the 20-step loop of `evaluate_algorithm`, acting on
`(state, successes, failures, accumulated fragmentation)`.  Python counts a
success when the returned id is truthy, i.e. not `None` and not `0`. -/
def evalStep (alg : Alg) (acc : AllocState × Nat × Nat × Nat) (r : RandStep) :
    AllocState × Nat × Nat × Nat :=
  let s := acc.1
  let succ := acc.2.1
  let fail := acc.2.2.1
  let frag := acc.2.2.2
  let next :=
    if r.coin || s.allocations.isEmpty then
      match allocate s r.size alg with
      | (some i, s2) => if i = 0 then (s2, succ, fail + 1) else (s2, succ + 1, fail)
      | (none, s2) => (s2, succ, fail + 1)
    else
      let keys := s.allocations.map Prod.fst
      let victim := keys.getD (r.pick % keys.length) 0
      ((free s victim).2, succ, fail)
  (next.1, next.2.1, next.2.2, frag + (get_stats next.1).fragmentation)

/-- `evaluate_algorithm(algorithm)`: save the state, run the synthetic
workload, restore the saved copies, and run `_merge_blocks` once more.
Returns `(success_rate, avg_fragmentation)` and the post state. -/
def evaluate_algorithm (s : AllocState) (alg : Alg) (rand : List RandStep) :
    (ℚ × ℚ) × AllocState :=
  let fin := rand.foldl (evalStep alg) (s, 0, 0, 0)
  let succ := fin.2.1
  let fail := fin.2.2.1
  let frag := fin.2.2.2
  let restored : AllocState :=
    { fin.1 with
        allocations := s.allocations
        free_blocks := s.free_blocks
        next_id := s.next_id }
  let final : AllocState := { restored with free_blocks := mergeBlocks restored.free_blocks }
  let success_rate : ℚ :=
    if 0 < succ + fail then (succ : ℚ) / ((succ : ℚ) + (fail : ℚ)) else 0
  let avg_fragmentation : ℚ :=
    if 0 < rand.length then (frag : ℚ) / (rand.length : ℚ) else 0
  ((success_rate, avg_fragmentation), final)

/-- Repeated calls of `evaluate_algorithm`, keeping only the arena state. -/
def runEvals (s : AllocState) (calls : List (Alg × List RandStep)) : AllocState :=
  calls.foldl (fun st c => (evaluate_algorithm st c.1 c.2).2) s

/-- External operations driving the allocator. -/
inductive Op
  | alloc (size : Int) (alg : Alg)
  | free (id : Nat)
deriving DecidableEq, Repr

/-- Apply one operation, discarding the returned value. -/
def applyOp (s : AllocState) : Op → AllocState
  | Op.alloc size alg => (allocate s size alg).2
  | Op.free i => (MemAlloc.free s i).2

/-- Run a sequence of operations from a given state. -/
def run (s : AllocState) (ops : List Op) : AllocState :=
  ops.foldl applyOp s

/-- Well-formed request: allocations ask for a positive size (the caller
contract of the spec); any id may be passed to `free`. -/
def opOk : Op → Prop
  | Op.alloc size _ => 0 < size
  | Op.free _ => True

instance : DecidablePred opOk := fun op =>
  match op with
  | Op.alloc size _ => inferInstanceAs (Decidable (0 < size))
  | Op.free _ => inferInstanceAs (Decidable True)

/-- Number of blocks of `l` containing address `x` (with multiplicity). -/
def cov (x : Int) (b : Block) : Nat :=
  if b.1 ≤ x ∧ x < b.1 + b.2 then 1 else 0

/-- Total multiplicity of address `x` in a block list. -/
def covList (x : Int) (l : List Block) : Nat :=
  (l.map (cov x)).sum

/-- Address `x` lies in some block of `l`. -/
def covered (l : List Block) (x : Int) : Prop :=
  0 < covList x l

/-- All blocks owned by the arena: free blocks then allocation intervals. -/
def allBlocks (s : AllocState) : List Block :=
  s.free_blocks ++ allocBlocks s

/-- Two blocks describe disjoint intervals. -/
def blocksDisjoint (a b : Block) : Prop :=
  a.1 + a.2 ≤ b.1 ∨ b.1 + b.2 ≤ a.1

/-- Block `a` ends strictly before block `b` starts. -/
def gapLt (a b : Block) : Prop :=
  a.1 + a.2 < b.1

/-- Block `a` ends at or before the start of block `b`. -/
def adjLe (a b : Block) : Prop :=
  a.1 + a.2 ≤ b.1

/-- No block of `l` ends exactly where another (or itself) starts. -/
def noAdjacent (l : List Block) : Prop :=
  ∀ p ∈ l, ∀ q ∈ l, p.1 + p.2 ≠ q.1

/-- The set of addresses of a block. -/
def toSet (b : Block) : Set Int :=
  Set.Ico b.1 (b.1 + b.2)

/-- Invariant carried by every reachable state: the free blocks and the
allocation intervals tile `[0, total)` with multiplicity one, all blocks have
positive size, sizes add up to the capacity, live ids are below the id
counter, and no two free blocks are adjacent. -/
structure Inv (s : AllocState) : Prop where
  count : ∀ x : Int, covList x (allBlocks s) = if 0 ≤ x ∧ x < s.total then 1 else 0
  freePos : ∀ b ∈ s.free_blocks, 0 < b.2
  allocPos : ∀ p ∈ s.allocations, 0 < p.2.2
  sumEq : sumSizes (allBlocks s) = s.total
  keysLt : ∀ p ∈ s.allocations, p.1 < s.next_id
  nonadj : noAdjacent s.free_blocks

/-! Basic facts about the coverage count `covList`. -/

theorem covList_nil (x : Int) : covList x [] = 0 := rfl

theorem covList_cons (x : Int) (b : Block) (l : List Block) :
    covList x (b :: l) = cov x b + covList x l := rfl

theorem covList_append (x : Int) (l1 l2 : List Block) :
    covList x (l1 ++ l2) = covList x l1 + covList x l2 := by
  unfold covList
  rw [List.map_append, List.sum_append]

theorem cov_le_one (x : Int) (b : Block) : cov x b ≤ 1 := by
  unfold cov; split <;> omega

theorem cov_eq_one_iff (x : Int) (b : Block) :
    cov x b = 1 ↔ b.1 ≤ x ∧ x < b.1 + b.2 := by
  unfold cov; split <;> simp_all

theorem cov_eq_zero_iff (x : Int) (b : Block) :
    cov x b = 0 ↔ ¬(b.1 ≤ x ∧ x < b.1 + b.2) := by
  unfold cov; split <;> simp_all

theorem cov_le_covList (x : Int) (b : Block) {l : List Block} (h : b ∈ l) :
    cov x b ≤ covList x l := by
  induction l with
  | nil => cases h
  | cons a t ih =>
    rcases List.mem_cons.mp h with h | h
    · subst h; rw [covList_cons]; omega
    · have := ih h; rw [covList_cons]; omega

theorem covered_iff (l : List Block) (x : Int) :
    covered l x ↔ ∃ b ∈ l, b.1 ≤ x ∧ x < b.1 + b.2 := by
  induction l with
  | nil => simp [covered, covList_nil]
  | cons a t ih =>
    unfold covered at *
    rw [covList_cons]
    constructor
    · intro h
      by_cases ha : cov x a = 1
      · exact ⟨a, List.mem_cons_self a t, (cov_eq_one_iff x a).mp ha⟩
      · have h0 : cov x a = 0 := by have := cov_le_one x a; omega
        rcases ih.mp (by omega) with ⟨b, hb, hx⟩
        exact ⟨b, List.mem_cons_of_mem a hb, hx⟩
    · rintro ⟨b, hb, hx⟩
      rcases List.mem_cons.mp hb with hb | hb
      · subst hb; have := (cov_eq_one_iff x b).mpr hx; omega
      · have := cov_le_covList x b hb
        have := (cov_eq_one_iff x b).mpr hx
        omega

theorem covList_perm (x : Int) {l l' : List Block} (h : l.Perm l') :
    covList x l = covList x l' :=
  (h.map (cov x)).sum_eq

theorem sumSizes_perm {l l' : List Block} (h : l.Perm l') :
    sumSizes l = sumSizes l' :=
  (h.map Prod.snd).sum_eq

theorem mapSum_eraseIdx {M : Type} [AddCommMonoid M] (f : Block → M) :
    ∀ (l : List Block) (i : Nat) (b : Block), l.get? i = some b →
      (l.map f).sum = ((l.eraseIdx i).map f).sum + f b
  | [], i, b, h => by simp [List.get?] at h
  | a :: t, 0, b, h => by
    have hb : a = b := by simpa [List.get?] using h
    subst hb
    show f a + (t.map f).sum = (t.map f).sum + f a
    exact add_comm _ _
  | a :: t, i + 1, b, h => by
    have h' : t.get? i = some b := by simpa [List.get?] using h
    have ih := mapSum_eraseIdx f t i b h'
    show f a + (t.map f).sum = f a + ((t.eraseIdx i).map f).sum + f b
    rw [ih, add_assoc]

theorem covList_eraseIdx (x : Int) (l : List Block) (i : Nat) (b : Block)
    (h : l.get? i = some b) :
    covList x l = covList x (l.eraseIdx i) + cov x b :=
  mapSum_eraseIdx (cov x) l i b h

theorem sumSizes_eraseIdx (l : List Block) (i : Nat) (b : Block)
    (h : l.get? i = some b) :
    sumSizes l = sumSizes (l.eraseIdx i) + b.2 :=
  mapSum_eraseIdx Prod.snd l i b h

theorem mem_of_get? {l : List Block} {i : Nat} {b : Block} (h : l.get? i = some b) :
    b ∈ l :=
  List.get?_mem h

theorem get?_of_mem_eraseIdx :
    ∀ (l : List Block) (i : Nat) (x : Block), x ∈ l.eraseIdx i →
      ∃ j, j ≠ i ∧ l.get? j = some x
  | [], _, x, h => by simp [List.eraseIdx] at h
  | a :: t, 0, x, h => by
    have h' : x ∈ t := h
    rcases List.mem_iff_get?.mp h' with ⟨j, hj⟩
    exact ⟨j + 1, by omega, by simpa [List.get?] using hj⟩
  | a :: t, i + 1, x, h => by
    have h' : x ∈ a :: t.eraseIdx i := h
    rcases List.mem_cons.mp h' with h'' | h''
    · exact ⟨0, by omega, by simp [List.get?, h'']⟩
    · rcases get?_of_mem_eraseIdx t i x h'' with ⟨j, hji, hj⟩
      exact ⟨j + 1, by omega, by simpa [List.get?] using hj⟩

theorem two_le_covList (x : Int) :
    ∀ (l : List Block) (i j : Nat) (p q : Block), i ≠ j →
      l.get? i = some p → l.get? j = some q →
      cov x p = 1 → cov x q = 1 → 2 ≤ covList x l
  | [], i, _, p, q, _, hp, _, _, _ => by simp [List.get?] at hp
  | a :: t, 0, 0, p, q, hij, _, _, _, _ => absurd rfl hij
  | a :: t, 0, j + 1, p, q, _, hp, hq, hcp, hcq => by
    have hap : a = p := by simpa [List.get?] using hp
    subst hap
    have hq' : t.get? j = some q := by simpa [List.get?] using hq
    have := cov_le_covList x q (mem_of_get? hq')
    rw [covList_cons]
    omega
  | a :: t, i + 1, 0, p, q, _, hp, hq, hcp, hcq => by
    have haq : a = q := by simpa [List.get?] using hq
    subst haq
    have hp' : t.get? i = some p := by simpa [List.get?] using hp
    have := cov_le_covList x p (mem_of_get? hp')
    rw [covList_cons]
    omega
  | a :: t, i + 1, j + 1, p, q, hij, hp, hq, hcp, hcq => by
    have hp' : t.get? i = some p := by simpa [List.get?] using hp
    have hq' : t.get? j = some q := by simpa [List.get?] using hq
    have := two_le_covList x t i j p q (by omega) hp' hq' hcp hcq
    rw [covList_cons]
    omega

theorem pairwiseDisjoint_of_covList_le_one :
    ∀ (l : List Block), (∀ x, covList x l ≤ 1) → (∀ b ∈ l, 0 < b.2) →
      l.Pairwise blocksDisjoint
  | [], _, _ => List.Pairwise.nil
  | a :: t, h1, hpos => by
    constructor
    · intro b hb
      by_contra hnd
      unfold blocksDisjoint at hnd
      push_neg at hnd
      have hpa : 0 < a.2 := hpos a (List.mem_cons_self a t)
      have hpb : 0 < b.2 := hpos b (List.mem_cons_of_mem a hb)
      set x := max a.1 b.1 with hx
      have hca : cov x a = 1 := (cov_eq_one_iff x a).mpr (by omega)
      have hcb : cov x b = 1 := (cov_eq_one_iff x b).mpr (by omega)
      have := cov_le_covList x b hb
      have := h1 x
      rw [covList_cons] at this
      omega
    · exact pairwiseDisjoint_of_covList_le_one t
        (fun x => by have := h1 x; rw [covList_cons] at this; omega)
        (fun b hb => hpos b (List.mem_cons_of_mem a hb))

/-! Facts about the association-list model of the allocation dict. -/

theorem dictGet_mem {k : Nat} {b : Block} :
    ∀ {l : List (Nat × Block)}, dictGet k l = some b → (k, b) ∈ l
  | [], h => by simp [dictGet] at h
  | p :: t, h => by
    by_cases hk : p.1 = k
    · have : p.2 = b := by simpa [dictGet, hk] using h
      have : p = (k, b) := by
        cases p; simp_all
      rw [← this]; exact List.mem_cons_self _ _
    · have h' : dictGet k t = some b := by simpa [dictGet, hk] using h
      exact List.mem_cons_of_mem _ (dictGet_mem h')

theorem dictPop_sub {k : Nat} :
    ∀ {l : List (Nat × Block)} {p : Nat × Block}, p ∈ dictPop k l → p ∈ l
  | [], _, h => by simp [dictPop] at h
  | q :: t, p, h => by
    by_cases hk : q.1 = k
    · have : p ∈ t := by simpa [dictPop, hk] using h
      exact List.mem_cons_of_mem _ this
    · have h' : p ∈ q :: dictPop k t := by simpa [dictPop, hk] using h
      rcases List.mem_cons.mp h' with h'' | h''
      · exact h'' ▸ List.mem_cons_self _ _
      · exact List.mem_cons_of_mem _ (dictPop_sub h'')

theorem dictPop_mapSum {M : Type} [AddCommMonoid M] (f : Nat × Block → M) {k : Nat}
    {b : Block} :
    ∀ {l : List (Nat × Block)}, dictGet k l = some b →
      (l.map f).sum = ((dictPop k l).map f).sum + f (k, b)
  | [], h => by simp [dictGet] at h
  | p :: t, h => by
    by_cases hk : p.1 = k
    · have hb : p.2 = b := by simpa [dictGet, hk] using h
      have hp : p = (k, b) := by cases p; simp_all
      show f p + (t.map f).sum = ((dictPop k (p :: t)).map f).sum + f (k, b)
      rw [hp]
      simp only [dictPop, if_pos (show (k, b).1 = k from rfl)]
      exact add_comm _ _
    · have h' : dictGet k t = some b := by simpa [dictGet, hk] using h
      have ih := dictPop_mapSum f h'
      show f p + (t.map f).sum = ((dictPop k (p :: t)).map f).sum + f (k, b)
      simp only [dictPop, if_neg hk, List.map_cons, List.sum_cons]
      rw [ih, add_assoc]

theorem dictInsert_fresh {k : Nat} {v : Block} :
    ∀ {l : List (Nat × Block)}, (∀ p ∈ l, p.1 ≠ k) →
      dictInsert k v l = l ++ [(k, v)]
  | [], _ => rfl
  | p :: t, h => by
    have hk : p.1 ≠ k := h p (List.mem_cons_self _ _)
    simp only [dictInsert, if_neg hk, List.cons_append]
    rw [dictInsert_fresh fun q hq => h q (List.mem_cons_of_mem _ hq)]

theorem dictGet_insert_self (k : Nat) (v : Block) :
    ∀ (l : List (Nat × Block)), dictGet k (dictInsert k v l) = some v
  | [] => by simp [dictInsert, dictGet]
  | p :: t => by
    by_cases hk : p.1 = k
    · simp [dictInsert, hk, dictGet]
    · simp only [dictInsert, if_neg hk, dictGet]
      exact dictGet_insert_self k v t

theorem dictMem_eq_isSome (k : Nat) :
    ∀ (l : List (Nat × Block)), dictMem k l = (dictGet k l).isSome
  | [] => rfl
  | p :: t => by
    by_cases hk : p.1 = k
    · simp [dictMem, dictGet, hk]
    · simp only [dictMem, List.any_cons, dictGet, if_neg hk]
      rw [show (p.1 == k) = false by simpa using hk]
      simpa [dictMem] using dictMem_eq_isSome k t

/-! Facts about the best-fit and worst-fit scan loops. -/

theorem bestUpd_none_eq (size : Int) (i : Nat) (st bsz : Int) :
    bestUpd size none i st bsz = if size ≤ bsz then some (i, st, bsz) else none := rfl

theorem bestUpd_some_eq (size : Int) (b : Nat × Int × Int) (i : Nat) (st bsz : Int) :
    bestUpd size (some b) i st bsz =
      if size ≤ bsz ∧ bsz < b.2.1 then some (i, st, bsz) else some b := rfl

theorem worstUpd_none_eq (size : Int) (i : Nat) (st bsz : Int) :
    worstUpd size none i st bsz = if size ≤ bsz then some (i, st, bsz) else none := rfl

theorem worstUpd_some_eq (size : Int) (b : Nat × Int × Int) (i : Nat) (st bsz : Int) :
    worstUpd size (some b) i st bsz =
      if size ≤ bsz ∧ b.2.2 < bsz then some (i, st, bsz) else some b := rfl

theorem bestUpd_cases {size : Int} {best : Option (Nat × Int × Int)} {i : Nat}
    {st bsz : Int} {r : Nat × Int × Int} (h : bestUpd size best i st bsz = some r) :
    best = some r ∨ (r = (i, st, bsz) ∧ size ≤ bsz) := by
  cases best with
  | none => rw [bestUpd_none_eq] at h; split at h <;> simp_all
  | some b => rw [bestUpd_some_eq] at h; split at h <;> simp_all

theorem worstUpd_cases {size : Int} {best : Option (Nat × Int × Int)} {i : Nat}
    {st bsz : Int} {r : Nat × Int × Int} (h : worstUpd size best i st bsz = some r) :
    best = some r ∨ (r = (i, st, bsz) ∧ size ≤ bsz) := by
  cases best with
  | none => rw [worstUpd_none_eq] at h; split at h <;> simp_all
  | some b => rw [worstUpd_some_eq] at h; split at h <;> simp_all

theorem bestScan_valid (size : Int) :
    ∀ (rest : List Block) (i0 : Nat) (best : Option (Nat × Int × Int))
      (r : Nat × Int × Int), bestScan size rest i0 best = some r →
      best = some r ∨
        ∃ j, rest.get? j = some (r.2.1, r.2.2) ∧ r.1 = i0 + j ∧ size ≤ r.2.2
  | [], _, _, _, h => Or.inl h
  | (st, bsz) :: rest, i0, best, r, h => by
    rcases bestScan_valid size rest (i0 + 1) _ r h with h' | ⟨j, hj, hr, hq⟩
    · rcases bestUpd_cases h' with h'' | ⟨h'', hq⟩
      · exact Or.inl h''
      · subst h''
        exact Or.inr ⟨0, by simp [List.get?], by omega, hq⟩
    · exact Or.inr ⟨j + 1, by simpa [List.get?] using hj, by omega, hq⟩

theorem worstScan_valid (size : Int) :
    ∀ (rest : List Block) (i0 : Nat) (best : Option (Nat × Int × Int))
      (r : Nat × Int × Int), worstScan size rest i0 best = some r →
      best = some r ∨
        ∃ j, rest.get? j = some (r.2.1, r.2.2) ∧ r.1 = i0 + j ∧ size ≤ r.2.2
  | [], _, _, _, h => Or.inl h
  | (st, bsz) :: rest, i0, best, r, h => by
    rcases worstScan_valid size rest (i0 + 1) _ r h with h' | ⟨j, hj, hr, hq⟩
    · rcases worstUpd_cases h' with h'' | ⟨h'', hq⟩
      · exact Or.inl h''
      · subst h''
        exact Or.inr ⟨0, by simp [List.get?], by omega, hq⟩
    · exact Or.inr ⟨j + 1, by simpa [List.get?] using hj, by omega, hq⟩

/-- When a candidate search succeeds, the chosen index points at the chosen
block inside the free list and the block is large enough. -/
theorem findBlock_valid {alg : Alg} {size : Int} {blocks : List Block} {i : Nat}
    {st bsz : Int} (h : findBlock alg size blocks = some (i, st, bsz)) :
    blocks.get? i = some (st, bsz) ∧ size ≤ bsz := by
  cases alg with
  | best =>
    rcases bestScan_valid size blocks 0 none _ h with h' | ⟨j, hj, hr, hq⟩
    · cases h'
    · exact ⟨by simpa [show i = j by simpa using hr] using hj, hq⟩
  | worst =>
    rcases worstScan_valid size blocks 0 none _ h with h' | ⟨j, hj, hr, hq⟩
    · cases h'
    · exact ⟨by simpa [show i = j by simpa using hr] using hj, hq⟩

theorem bestScan_none (size : Int) :
    ∀ (rest : List Block) (i0 : Nat), (∀ b ∈ rest, b.2 < size) →
      bestScan size rest i0 none = none
  | [], _, _ => rfl
  | (st, bsz) :: rest, i0, h => by
    have hs : bsz < size := h (st, bsz) (List.mem_cons_self _ _)
    show bestScan size rest (i0 + 1) (bestUpd size none i0 st bsz) = none
    rw [show bestUpd size none i0 st bsz = none by
      unfold bestUpd; rw [if_neg (by omega)]]
    exact bestScan_none size rest (i0 + 1) fun b hb => h b (List.mem_cons_of_mem _ hb)

theorem worstScan_none (size : Int) :
    ∀ (rest : List Block) (i0 : Nat), (∀ b ∈ rest, b.2 < size) →
      worstScan size rest i0 none = none
  | [], _, _ => rfl
  | (st, bsz) :: rest, i0, h => by
    have hs : bsz < size := h (st, bsz) (List.mem_cons_self _ _)
    show worstScan size rest (i0 + 1) (worstUpd size none i0 st bsz) = none
    rw [show worstUpd size none i0 st bsz = none by
      unfold worstUpd; rw [if_neg (by omega)]]
    exact worstScan_none size rest (i0 + 1) fun b hb => h b (List.mem_cons_of_mem _ hb)

theorem bestUpd_of_some {size : Int} {b : Nat × Int × Int} (i : Nat) (st bsz : Int) :
    ∃ r, bestUpd size (some b) i st bsz = some r := by
  rw [bestUpd_some_eq]; split <;> exact ⟨_, rfl⟩

theorem worstUpd_of_some {size : Int} {b : Nat × Int × Int} (i : Nat) (st bsz : Int) :
    ∃ r, worstUpd size (some b) i st bsz = some r := by
  rw [worstUpd_some_eq]; split <;> exact ⟨_, rfl⟩

theorem bestScan_some_of_some (size : Int) :
    ∀ (rest : List Block) (i0 : Nat) (b : Nat × Int × Int),
      ∃ r, bestScan size rest i0 (some b) = some r
  | [], _, b => ⟨b, rfl⟩
  | (st, bsz) :: rest, i0, b => by
    rcases @bestUpd_of_some size b i0 st bsz with ⟨r1, hr1⟩
    show ∃ r, bestScan size rest (i0 + 1) (bestUpd size (some b) i0 st bsz) = some r
    rw [hr1]
    exact bestScan_some_of_some size rest (i0 + 1) r1

theorem worstScan_some_of_some (size : Int) :
    ∀ (rest : List Block) (i0 : Nat) (b : Nat × Int × Int),
      ∃ r, worstScan size rest i0 (some b) = some r
  | [], _, b => ⟨b, rfl⟩
  | (st, bsz) :: rest, i0, b => by
    rcases @worstUpd_of_some size b i0 st bsz with ⟨r1, hr1⟩
    show ∃ r, worstScan size rest (i0 + 1) (worstUpd size (some b) i0 st bsz) = some r
    rw [hr1]
    exact worstScan_some_of_some size rest (i0 + 1) r1

theorem bestScan_some_of_qual (size : Int) :
    ∀ (rest : List Block) (i0 : Nat) (best : Option (Nat × Int × Int)),
      (∃ b ∈ rest, size ≤ b.2) → ∃ r, bestScan size rest i0 best = some r
  | [], _, _, h => by simp at h
  | (st, bsz) :: rest, i0, best, h => by
    show ∃ r, bestScan size rest (i0 + 1) (bestUpd size best i0 st bsz) = some r
    rcases h with ⟨b, hb, hq⟩
    rcases List.mem_cons.mp hb with hb | hb
    · have hqs : size ≤ bsz := by rw [hb] at hq; exact hq
      have : ∃ b1, bestUpd size best i0 st bsz = some b1 := by
        cases best with
        | none => rw [bestUpd_none_eq, if_pos hqs]; exact ⟨_, rfl⟩
        | some b0 => exact bestUpd_of_some i0 st bsz
      rcases this with ⟨b1, hb1⟩
      rw [hb1]
      exact bestScan_some_of_some size rest (i0 + 1) b1
    · cases hb1 : bestUpd size best i0 st bsz with
      | none => exact bestScan_some_of_qual size rest (i0 + 1) none ⟨b, hb, hq⟩
      | some b1 =>
        exact bestScan_some_of_qual size rest (i0 + 1) (some b1) ⟨b, hb, hq⟩

theorem worstScan_some_of_qual (size : Int) :
    ∀ (rest : List Block) (i0 : Nat) (best : Option (Nat × Int × Int)),
      (∃ b ∈ rest, size ≤ b.2) → ∃ r, worstScan size rest i0 best = some r
  | [], _, _, h => by simp at h
  | (st, bsz) :: rest, i0, best, h => by
    show ∃ r, worstScan size rest (i0 + 1) (worstUpd size best i0 st bsz) = some r
    rcases h with ⟨b, hb, hq⟩
    rcases List.mem_cons.mp hb with hb | hb
    · have hqs : size ≤ bsz := by rw [hb] at hq; exact hq
      have : ∃ b1, worstUpd size best i0 st bsz = some b1 := by
        cases best with
        | none => rw [worstUpd_none_eq, if_pos hqs]; exact ⟨_, rfl⟩
        | some b0 => exact worstUpd_of_some i0 st bsz
      rcases this with ⟨b1, hb1⟩
      rw [hb1]
      exact worstScan_some_of_some size rest (i0 + 1) b1
    · cases hb1 : worstUpd size best i0 st bsz with
      | none => exact worstScan_some_of_qual size rest (i0 + 1) none ⟨b, hb, hq⟩
      | some b1 =>
        exact worstScan_some_of_qual size rest (i0 + 1) (some b1) ⟨b, hb, hq⟩

theorem worstUpd_cases2 {size : Int} {b0 : Nat × Int × Int} {i : Nat} {st bsz : Int}
    {r : Nat × Int × Int} (h : worstUpd size (some b0) i st bsz = some r) :
    r = b0 ∨ (r = (i, st, bsz) ∧ size ≤ bsz ∧ b0.2.2 < bsz) := by
  rw [worstUpd_some_eq] at h
  split at h <;> simp_all

/-- Along the worst-fit scan the incumbent's size never decreases, and it
only changes by strictly increasing. -/
theorem worstScan_growth (size : Int) :
    ∀ (rest : List Block) (i0 : Nat) (b0 : Nat × Int × Int) (r : Nat × Int × Int),
      worstScan size rest i0 (some b0) = some r → r = b0 ∨ b0.2.2 < r.2.2
  | [], _, b0, r, h => by
    have h' : some b0 = some r := h
    exact Or.inl (Option.some.inj h').symm
  | (st, bsz) :: rest, i0, b0, r, h => by
    have h' : worstScan size rest (i0 + 1) (worstUpd size (some b0) i0 st bsz) = some r := h
    rcases @worstUpd_of_some size b0 i0 st bsz with ⟨b1, hb1⟩
    rw [hb1] at h'
    rcases worstUpd_cases2 hb1 with h1 | ⟨h1, hq1, hlt1⟩
    · rw [h1] at h'
      exact worstScan_growth size rest (i0 + 1) b0 r h'
    · rcases worstScan_growth size rest (i0 + 1) b1 r h' with h2 | h2
      · subst h2; right; rw [h1]; exact hlt1
      · right
        have : b1.2.2 = bsz := by rw [h1]
        omega

/-- Every qualifying block of the scanned suffix is at most as large as the
block finally chosen by the worst-fit scan. -/
theorem worstScan_dom (size : Int) :
    ∀ (rest : List Block) (i0 : Nat) (best : Option (Nat × Int × Int))
      (r : Nat × Int × Int), worstScan size rest i0 best = some r →
      ∀ (j : Nat) (b : Block), rest.get? j = some b → size ≤ b.2 → b.2 ≤ r.2.2
  | [], _, _, _, _, j, b, hj, _ => by simp [List.get?] at hj
  | (st, bsz) :: rest, i0, best, r, h, 0, b, hj, hq => by
    have hb : b = (st, bsz) := by simpa [List.get?] using hj.symm
    subst hb
    have hqs : size ≤ bsz := hq
    have hb1 : ∃ b1, worstUpd size best i0 st bsz = some b1 ∧ bsz ≤ b1.2.2 := by
      cases best with
      | none => rw [worstUpd_none_eq, if_pos hqs]; exact ⟨_, rfl, le_refl _⟩
      | some b0 =>
        rw [worstUpd_some_eq]
        by_cases hc : size ≤ bsz ∧ b0.2.2 < bsz
        · rw [if_pos hc]; exact ⟨_, rfl, le_refl _⟩
        · rw [if_neg hc]; exact ⟨b0, rfl, by omega⟩
    rcases hb1 with ⟨b1, hb1, hle⟩
    have h' : worstScan size rest (i0 + 1) (some b1) = some r := by
      have : worstScan size rest (i0 + 1) (worstUpd size best i0 st bsz) = some r := h
      rwa [hb1] at this
    rcases worstScan_growth size rest (i0 + 1) b1 r h' with h2 | h2
    · subst h2; exact hle
    · omega
  | (st, bsz) :: rest, i0, best, r, h, j + 1, b, hj, hq => by
    have hj' : rest.get? j = some b := by simpa [List.get?] using hj
    exact worstScan_dom size rest (i0 + 1) _ r h j b hj' hq

theorem worstUpd_idx {size : Int} {best : Option (Nat × Int × Int)} {i0 : Nat}
    {st bsz : Int} (hb : ∀ b0, best = some b0 → b0.1 < i0) :
    ∀ b1, worstUpd size best i0 st bsz = some b1 → b1.1 ≤ i0 := by
  intro b1 h
  rcases worstUpd_cases h with h' | ⟨h', _⟩
  · exact le_of_lt (hb b1 h')
  · rw [h']

/-- Tie-break of the worst-fit scan: every qualifying block strictly before
the chosen index is strictly smaller than the chosen block. -/
theorem worstScan_first (size : Int) :
    ∀ (rest : List Block) (i0 : Nat) (best : Option (Nat × Int × Int))
      (r : Nat × Int × Int), worstScan size rest i0 best = some r →
      (∀ b0, best = some b0 → b0.1 < i0) →
      ∀ (j : Nat) (b : Block), rest.get? j = some b → i0 + j < r.1 → size ≤ b.2 →
        b.2 < r.2.2
  | [], _, _, _, _, _, j, b, hj, _, _ => by simp [List.get?] at hj
  | (st, bsz) :: rest, i0, best, r, h, hb, 0, b, hj, hlt, hq => by
    have hbb : b = (st, bsz) := by simpa [List.get?] using hj.symm
    subst hbb
    have hqs : size ≤ bsz := hq
    have hb1 : ∃ b1, worstUpd size best i0 st bsz = some b1 ∧ bsz ≤ b1.2.2 ∧ b1.1 ≤ i0 := by
      cases best with
      | none =>
        rw [worstUpd_none_eq, if_pos hqs]; exact ⟨_, rfl, le_refl _, le_refl _⟩
      | some b0 =>
        rw [worstUpd_some_eq]
        by_cases hc : size ≤ bsz ∧ b0.2.2 < bsz
        · rw [if_pos hc]; exact ⟨_, rfl, le_refl _, le_refl _⟩
        · rw [if_neg hc]
          exact ⟨b0, rfl, by omega, le_of_lt (hb b0 rfl)⟩
    rcases hb1 with ⟨b1, hb1, hle, hidx⟩
    have h' : worstScan size rest (i0 + 1) (some b1) = some r := by
      have : worstScan size rest (i0 + 1) (worstUpd size best i0 st bsz) = some r := h
      rwa [hb1] at this
    rcases worstScan_growth size rest (i0 + 1) b1 r h' with h2 | h2
    · exfalso; rw [h2] at hlt; omega
    · omega
  | (st, bsz) :: rest, i0, best, r, h, hb, j + 1, b, hj, hlt, hq => by
    have hj' : rest.get? j = some b := by simpa [List.get?] using hj
    have hb' : ∀ b0, worstUpd size best i0 st bsz = some b0 → b0.1 < i0 + 1 := by
      intro b0 h0
      have := worstUpd_idx hb b0 h0
      omega
    exact worstScan_first size rest (i0 + 1) _ r h hb' j b hj' (by omega) hq

/-! Facts about `_merge_blocks`: sorting and the coalescing loop. -/

theorem sumSizes_nil : sumSizes [] = 0 := rfl

theorem sumSizes_cons (b : Block) (l : List Block) :
    sumSizes (b :: l) = b.2 + sumSizes l := rfl

theorem sumSizes_append (l1 l2 : List Block) :
    sumSizes (l1 ++ l2) = sumSizes l1 + sumSizes l2 := by
  unfold sumSizes
  rw [List.map_append, List.sum_append]

theorem sortBlocks_perm (l : List Block) : (sortBlocks l).Perm l :=
  List.perm_insertionSort lexLe l

theorem sortBlocks_sorted (l : List Block) : List.Sorted lexLe (sortBlocks l) :=
  List.sorted_insertionSort lexLe l

theorem mergeGo_nil_eq (last : Block) : mergeGo last [] = [last] := rfl

theorem mergeGo_cons_eq (last c : Block) (cs : List Block) :
    mergeGo last (c :: cs) =
      if last.1 + last.2 = c.1 then mergeGo (last.1, last.2 + c.2) cs
      else last :: mergeGo c cs := rfl

theorem cov_split (x a s t : Int) (hs : 0 ≤ s) (ht : 0 ≤ t) :
    cov x (a, s + t) = cov x (a, s) + cov x (a + s, t) := by
  unfold cov
  split_ifs <;> simp_all <;> omega

theorem mergeGo_covList (x : Int) :
    ∀ (last : Block) (rest : List Block), 0 ≤ last.2 → (∀ b ∈ rest, 0 ≤ b.2) →
      covList x (mergeGo last rest) = cov x last + covList x rest
  | last, [], _, _ => by
    rw [mergeGo_nil_eq, covList_cons, covList_nil]
  | last, c :: cs, hl, hr => by
    rw [mergeGo_cons_eq]
    have hc : 0 ≤ c.2 := hr c (List.mem_cons_self _ _)
    by_cases h : last.1 + last.2 = c.1
    · rw [if_pos h]
      rw [mergeGo_covList x (last.1, last.2 + c.2) cs (by simpa using by omega)
        (fun b hb => hr b (List.mem_cons_of_mem _ hb))]
      rw [covList_cons]
      have hsplit := cov_split x last.1 last.2 c.2 hl hc
      have hcc : cov x (last.1 + last.2, c.2) = cov x c := by
        rw [h]
      have hee : cov x (last.1, last.2) = cov x last := rfl
      omega
    · rw [if_neg h, covList_cons,
        mergeGo_covList x c cs hc (fun b hb => hr b (List.mem_cons_of_mem _ hb)),
        covList_cons]

theorem mergeGo_sumSizes :
    ∀ (last : Block) (rest : List Block),
      sumSizes (mergeGo last rest) = last.2 + sumSizes rest
  | last, [] => by rw [mergeGo_nil_eq, sumSizes_cons, sumSizes_nil]
  | last, c :: cs => by
    rw [mergeGo_cons_eq]
    by_cases h : last.1 + last.2 = c.1
    · rw [if_pos h, mergeGo_sumSizes (last.1, last.2 + c.2) cs, sumSizes_cons]
      show last.2 + c.2 + sumSizes cs = last.2 + (c.2 + sumSizes cs)
      ring
    · rw [if_neg h, sumSizes_cons, mergeGo_sumSizes c cs, sumSizes_cons]

theorem mergeGo_pos :
    ∀ (last : Block) (rest : List Block), 0 < last.2 → (∀ b ∈ rest, 0 < b.2) →
      ∀ b ∈ mergeGo last rest, 0 < b.2
  | last, [], hl, _, b, hb => by
    rw [mergeGo_nil_eq] at hb
    rcases List.mem_cons.mp hb with h | h
    · exact h ▸ hl
    · cases h
  | last, c :: cs, hl, hr, b, hb => by
    rw [mergeGo_cons_eq] at hb
    have hc : 0 < c.2 := hr c (List.mem_cons_self _ _)
    by_cases h : last.1 + last.2 = c.1
    · rw [if_pos h] at hb
      exact mergeGo_pos (last.1, last.2 + c.2) cs (by simpa using by omega)
        (fun b' hb' => hr b' (List.mem_cons_of_mem _ hb')) b hb
    · rw [if_neg h] at hb
      rcases List.mem_cons.mp hb with h' | h'
      · exact h' ▸ hl
      · exact mergeGo_pos c cs hc
          (fun b' hb' => hr b' (List.mem_cons_of_mem _ hb')) b h'

theorem mergeGo_head :
    ∀ (last : Block) (rest : List Block), (∀ b ∈ rest, 0 ≤ b.2) →
      ∃ t tl, mergeGo last rest = (last.1, t) :: tl ∧ last.2 ≤ t
  | last, [], _ => ⟨last.2, [], by rw [mergeGo_nil_eq], le_refl _⟩
  | last, c :: cs, hr => by
    rw [mergeGo_cons_eq]
    by_cases h : last.1 + last.2 = c.1
    · rw [if_pos h]
      obtain ⟨t, tl, heq, hle⟩ := mergeGo_head (last.1, last.2 + c.2) cs
        (fun b hb => hr b (List.mem_cons_of_mem _ hb))
      have hc : 0 ≤ c.2 := hr c (List.mem_cons_self _ _)
      exact ⟨t, tl, heq, by simp at hle; omega⟩
    · rw [if_neg h]
      exact ⟨last.2, mergeGo c cs, rfl, le_refl _⟩

theorem mergeGo_chain :
    ∀ (last : Block) (rest : List Block), 0 < last.2 → (∀ b ∈ rest, 0 < b.2) →
      List.Chain' adjLe (last :: rest) →
      List.Chain' gapLt (mergeGo last rest)
  | last, [], _, _, _ => by
    rw [mergeGo_nil_eq]
    exact List.chain'_singleton last
  | last, c :: cs, hl, hr, hch => by
    rw [mergeGo_cons_eq]
    have hc : 0 < c.2 := hr c (List.mem_cons_self _ _)
    have hlc : adjLe last c := (List.chain'_cons.mp hch).1
    have hchc : List.Chain' adjLe (c :: cs) := (List.chain'_cons.mp hch).2
    by_cases h : last.1 + last.2 = c.1
    · rw [if_pos h]
      apply mergeGo_chain (last.1, last.2 + c.2) cs (by simpa using by omega)
        (fun b hb => hr b (List.mem_cons_of_mem _ hb))
      cases cs with
      | nil => exact List.chain'_singleton _
      | cons d ds =>
        have hcd : adjLe c d := (List.chain'_cons.mp hchc).1
        refine List.chain'_cons.mpr ⟨?_, (List.chain'_cons.mp hchc).2⟩
        show last.1 + (last.2 + c.2) ≤ d.1
        unfold adjLe at hcd
        omega
    · rw [if_neg h]
      have hrest : List.Chain' gapLt (mergeGo c cs) :=
        mergeGo_chain c cs hc (fun b hb => hr b (List.mem_cons_of_mem _ hb)) hchc
      obtain ⟨t, tl, heq, _⟩ := mergeGo_head c cs
        (fun b hb => le_of_lt (hr b (List.mem_cons_of_mem _ hb)))
      rw [heq] at hrest ⊢
      refine List.chain'_cons.mpr ⟨?_, hrest⟩
      show last.1 + last.2 < c.1
      unfold adjLe at hlc
      omega

theorem mergeGo_id :
    ∀ (last : Block) (rest : List Block),
      List.Chain' (fun p q : Block => p.1 + p.2 ≠ q.1) (last :: rest) →
      mergeGo last rest = last :: rest
  | _, [], _ => rfl
  | last, c :: cs, hch => by
    have h : last.1 + last.2 ≠ c.1 := (List.chain'_cons.mp hch).1
    rw [mergeGo_cons_eq, if_neg h, mergeGo_id c cs (List.chain'_cons.mp hch).2]

theorem mergeBlocks_covList (x : Int) (l : List Block) (h : ∀ b ∈ l, 0 ≤ b.2) :
    covList x (mergeBlocks l) = covList x l := by
  unfold mergeBlocks
  cases hs : sortBlocks l with
  | nil =>
    have hperm : List.Perm [] l := hs ▸ sortBlocks_perm l
    rw [covList_nil, ← covList_perm x hperm, covList_nil]
  | cons b rest =>
    have hperm : (b :: rest).Perm l := hs ▸ sortBlocks_perm l
    have hpos : ∀ b' ∈ b :: rest, 0 ≤ b'.2 := fun b' hb' => h b' (hperm.subset hb')
    rw [mergeGo_covList x b rest (hpos b (List.mem_cons_self _ _))
      (fun b' hb' => hpos b' (List.mem_cons_of_mem _ hb')), ← covList_cons]
    exact covList_perm x hperm

theorem mergeBlocks_sumSizes (l : List Block) :
    sumSizes (mergeBlocks l) = sumSizes l := by
  unfold mergeBlocks
  cases hs : sortBlocks l with
  | nil =>
    have hperm : List.Perm [] l := hs ▸ sortBlocks_perm l
    rw [sumSizes_nil, ← sumSizes_perm hperm, sumSizes_nil]
  | cons b rest =>
    have hperm : (b :: rest).Perm l := hs ▸ sortBlocks_perm l
    rw [mergeGo_sumSizes b rest, ← sumSizes_cons]
    exact sumSizes_perm hperm

theorem mergeBlocks_pos (l : List Block) (h : ∀ b ∈ l, 0 < b.2) :
    ∀ b ∈ mergeBlocks l, 0 < b.2 := by
  unfold mergeBlocks
  cases hs : sortBlocks l with
  | nil => intro b hb; cases hb
  | cons b rest =>
    have hperm : (b :: rest).Perm l := hs ▸ sortBlocks_perm l
    have hpos : ∀ b' ∈ b :: rest, 0 < b'.2 := fun b' hb' => h b' (hperm.subset hb')
    exact mergeGo_pos b rest (hpos b (List.mem_cons_self _ _))
      (fun b' hb' => hpos b' (List.mem_cons_of_mem _ hb'))

theorem chain_adjLe_of_sorted_disjoint :
    ∀ (l : List Block), List.Sorted lexLe l → (∀ b ∈ l, 0 < b.2) →
      l.Pairwise blocksDisjoint → List.Chain' adjLe l
  | [], _, _, _ => List.chain'_nil
  | [a], _, _, _ => List.chain'_singleton a
  | a :: b :: t, hsort, hpos, hdisj => by
    have hab1 : lexLe a b := (List.pairwise_cons.mp hsort).1 b (List.mem_cons_self _ _)
    have hab2 : blocksDisjoint a b := (List.pairwise_cons.mp hdisj).1 b (List.mem_cons_self _ _)
    have hpa : 0 < a.2 := hpos a (List.mem_cons_self _ _)
    have hpb : 0 < b.2 := hpos b (List.mem_cons_of_mem _ (List.mem_cons_self _ _))
    refine List.chain'_cons.mpr ⟨?_, ?_⟩
    · unfold lexLe at hab1
      unfold blocksDisjoint at hab2
      unfold adjLe
      omega
    · exact chain_adjLe_of_sorted_disjoint (b :: t) (List.pairwise_cons.mp hsort).2
        (fun b' hb' => hpos b' (List.mem_cons_of_mem _ hb'))
        (List.pairwise_cons.mp hdisj).2

theorem chain_ne_of_noadj :
    ∀ (l : List Block), noAdjacent l →
      List.Chain' (fun p q : Block => p.1 + p.2 ≠ q.1) l
  | [], _ => List.chain'_nil
  | [a], _ => List.chain'_singleton a
  | a :: b :: t, h => by
    refine List.chain'_cons.mpr ⟨?_, ?_⟩
    · exact h a (List.mem_cons_self _ _) b (List.mem_cons_of_mem _ (List.mem_cons_self _ _))
    · exact chain_ne_of_noadj (b :: t)
        (fun p hp q hq => h p (List.mem_cons_of_mem _ hp) q (List.mem_cons_of_mem _ hq))

theorem chain_gapLt_all :
    ∀ (a : Block) (l : List Block), List.Chain' gapLt (a :: l) →
      (∀ b ∈ l, 0 < b.2) → ∀ b ∈ l, gapLt a b
  | _, [], _, _, b, hb => absurd hb (List.not_mem_nil b)
  | a, c :: t, hch, hpos, b, hb => by
    have hac : gapLt a c := (List.chain'_cons.mp hch).1
    rcases List.mem_cons.mp hb with h | h
    · exact h ▸ hac
    · have hcb : gapLt c b := chain_gapLt_all c t (List.chain'_cons.mp hch).2
        (fun b' hb' => hpos b' (List.mem_cons_of_mem _ hb')) b h
      have hpc : 0 < c.2 := hpos c (List.mem_cons_self _ _)
      unfold gapLt at *
      omega

theorem pairwise_gapLt_of_chain :
    ∀ (l : List Block), List.Chain' gapLt l → (∀ b ∈ l, 0 < b.2) → l.Pairwise gapLt
  | [], _, _ => List.Pairwise.nil
  | a :: t, hch, hpos => by
    refine List.pairwise_cons.mpr ⟨?_, ?_⟩
    · exact chain_gapLt_all a t hch fun b hb => hpos b (List.mem_cons_of_mem _ hb)
    · exact pairwise_gapLt_of_chain t hch.tail
        fun b hb => hpos b (List.mem_cons_of_mem _ hb)

theorem noadj_of_pairwise_gapLt (l : List Block) (hpos : ∀ b ∈ l, 0 < b.2)
    (hp : l.Pairwise gapLt) : noAdjacent l := by
  intro p hp' q hq'
  by_cases hpq : p = q
  · subst hpq
    have := hpos p hp'
    unfold gapLt at *
    omega
  · have hsym : l.Pairwise fun a b : Block => gapLt a b ∨ gapLt b a :=
      hp.imp fun h => Or.inl h
    have := hsym.forall (fun a b h => h.symm.imp id id) hp' hq' hpq
    have hpp := hpos p hp'
    have hqp := hpos q hq'
    unfold gapLt at this
    rcases this with h | h <;> omega

theorem pairwiseDisjoint_of_pairwise_gapLt {l : List Block} (hp : l.Pairwise gapLt) :
    l.Pairwise blocksDisjoint :=
  hp.imp fun h => Or.inl (le_of_lt h)

theorem mergeBlocks_chain (l : List Block) (hpos : ∀ b ∈ l, 0 < b.2)
    (hdisj : ∀ x, covList x l ≤ 1) : List.Chain' gapLt (mergeBlocks l) := by
  unfold mergeBlocks
  cases hs : sortBlocks l with
  | nil => exact List.chain'_nil
  | cons b rest =>
    have hperm : (b :: rest).Perm l := hs ▸ sortBlocks_perm l
    have hpos' : ∀ b' ∈ b :: rest, 0 < b'.2 := fun b' hb' => hpos b' (hperm.subset hb')
    have hdisj' : ∀ x, covList x (b :: rest) ≤ 1 := fun x => by
      rw [covList_perm x hperm]; exact hdisj x
    have hsort : List.Sorted lexLe (b :: rest) := hs ▸ sortBlocks_sorted l
    have hpair : (b :: rest).Pairwise blocksDisjoint :=
      pairwiseDisjoint_of_covList_le_one _ hdisj' hpos'
    have hch : List.Chain' adjLe (b :: rest) :=
      chain_adjLe_of_sorted_disjoint _ hsort hpos' hpair
    exact mergeGo_chain b rest (hpos' b (List.mem_cons_self _ _))
      (fun b' hb' => hpos' b' (List.mem_cons_of_mem _ hb')) hch

theorem mergeBlocks_noadj (l : List Block) (hpos : ∀ b ∈ l, 0 < b.2)
    (hdisj : ∀ x, covList x l ≤ 1) : noAdjacent (mergeBlocks l) :=
  noadj_of_pairwise_gapLt _ (mergeBlocks_pos l hpos)
    (pairwise_gapLt_of_chain _ (mergeBlocks_chain l hpos hdisj) (mergeBlocks_pos l hpos))

theorem mergeBlocks_covLeOne (l : List Block) (hpos : ∀ b ∈ l, 0 < b.2)
    (hdisj : ∀ x, covList x l ≤ 1) : ∀ x, covList x (mergeBlocks l) ≤ 1 := by
  intro x
  rw [mergeBlocks_covList x l fun b hb => le_of_lt (hpos b hb)]
  exact hdisj x

/-- On an already coalesced (pairwise disjoint, positive, non-adjacent) free
list, `_merge_blocks` only sorts. -/
theorem mergeBlocks_eq_sort (l : List Block) (hpos : ∀ b ∈ l, 0 < b.2)
    (hdisj : ∀ x, covList x l ≤ 1) (hadj : noAdjacent l) :
    mergeBlocks l = sortBlocks l := by
  unfold mergeBlocks
  cases hs : sortBlocks l with
  | nil => rfl
  | cons b rest =>
    have hperm : (b :: rest).Perm l := hs ▸ sortBlocks_perm l
    have hadj' : noAdjacent (b :: rest) := fun p hp q hq =>
      hadj p (hperm.subset hp) q (hperm.subset hq)
    exact mergeGo_id b rest (chain_ne_of_noadj _ hadj')

theorem mergeBlocks_perm_of_noadj (l : List Block) (hpos : ∀ b ∈ l, 0 < b.2)
    (hdisj : ∀ x, covList x l ≤ 1) (hadj : noAdjacent l) :
    (mergeBlocks l).Perm l := by
  rw [mergeBlocks_eq_sort l hpos hdisj hadj]
  exact sortBlocks_perm l

theorem sorted_of_pairwise_gapLt :
    ∀ (l : List Block), (∀ b ∈ l, 0 < b.2) → l.Pairwise gapLt →
      List.Sorted lexLe l
  | [], _, _ => List.Pairwise.nil
  | a :: t, hpos, hp => by
    refine List.pairwise_cons.mpr ⟨?_, ?_⟩
    · intro b hb
      have hab : gapLt a b := (List.pairwise_cons.mp hp).1 b hb
      have hpa : 0 < a.2 := hpos a (List.mem_cons_self _ _)
      unfold gapLt at hab
      unfold lexLe
      omega
    · exact sorted_of_pairwise_gapLt t
        (fun b hb => hpos b (List.mem_cons_of_mem _ hb))
        (List.pairwise_cons.mp hp).2

theorem mergeBlocks_sorted (l : List Block) (hpos : ∀ b ∈ l, 0 < b.2)
    (hdisj : ∀ x, covList x l ≤ 1) : List.Sorted lexLe (mergeBlocks l) :=
  sorted_of_pairwise_gapLt _ (mergeBlocks_pos l hpos)
    (pairwise_gapLt_of_chain _ (mergeBlocks_chain l hpos hdisj) (mergeBlocks_pos l hpos))

/-- Coalescing is idempotent on disjoint lists of genuine (positive) regions:
the second pass sorts a sorted list and finds no adjacent pair. -/
theorem mergeBlocks_idem (l : List Block) (hpos : ∀ b ∈ l, 0 < b.2)
    (hdisj : ∀ x, covList x l ≤ 1) :
    mergeBlocks (mergeBlocks l) = mergeBlocks l := by
  rw [mergeBlocks_eq_sort (mergeBlocks l) (mergeBlocks_pos l hpos)
    (mergeBlocks_covLeOne l hpos hdisj) (mergeBlocks_noadj l hpos hdisj)]
  exact (mergeBlocks_sorted l hpos hdisj).insertionSort_eq

/-! Minimal-cardinality property of coalesced free lists: a disjoint,
positive, non-adjacent list of regions cannot be covered by fewer intervals. -/

theorem blocksDisjoint_symm : Symmetric blocksDisjoint := fun _ _ h => Or.symm h

/-- In a disjoint, non-adjacent list of positive regions, the end address of
any region is uncovered. -/
theorem ends_uncovered (m : List Block) (hpos : ∀ b ∈ m, 0 < b.2)
    (hdisj : m.Pairwise blocksDisjoint) (hadj : noAdjacent m) :
    ∀ b ∈ m, ¬ covered m (b.1 + b.2) := by
  intro b hb hcov
  rcases (covered_iff m _).mp hcov with ⟨c, hc, hx⟩
  by_cases hbc : b = c
  · subst hbc
    omega
  · have hrel : blocksDisjoint b c := hdisj.forall blocksDisjoint_symm hb hc hbc
    have hadjbc := hadj b hb c hc
    have hpb := hpos b hb
    have hpc := hpos c hc
    unfold blocksDisjoint at hrel
    rcases hrel with h | h <;> omega

theorem covered_of_le_covList {l1 l2 : List Block} {x : Int}
    (h : covList x l1 ≤ covList x l2) (hc : covered l1 x) : covered l2 x := by
  unfold covered at *
  omega

theorem minimal_cover :
    ∀ (m : List Block), (∀ b ∈ m, 0 < b.2) → m.Pairwise blocksDisjoint →
      noAdjacent m →
      ∀ (l' : List Block), (∀ x, covered m x → covered l' x) →
        (∀ b ∈ m, ¬ covered l' (b.1 + b.2)) →
        m.length ≤ l'.length
  | [], _, _, _, l', _, _ => Nat.zero_le _
  | r :: t, hpos, hdisj, hadj, l', hcov, hends => by
    have hpr : 0 < r.2 := hpos r (List.mem_cons_self _ _)
    have hrm : covered (r :: t) r.1 :=
      (covered_iff _ _).mpr ⟨r, List.mem_cons_self _ _, by omega⟩
    rcases (covered_iff l' _).mp (hcov _ hrm) with ⟨B, hB, hxB⟩
    rcases List.append_of_mem hB with ⟨l1, l2, rfl⟩
    have hcount : ∀ x, covList x (l1 ++ B :: l2) = covList x (l1 ++ l2) + cov x B := by
      intro x
      rw [covList_append, covList_cons, covList_append]
      omega
    have hBend : ¬(B.1 ≤ r.1 + r.2 ∧ r.1 + r.2 < B.1 + B.2) := by
      intro hx
      exact hends r (List.mem_cons_self _ _) ((covered_iff _ _).mpr ⟨B, hB, hx⟩)
    have hBsub : B.1 + B.2 ≤ r.1 + r.2 := by
      by_contra h
      push_neg at h
      exact hBend ⟨by omega, h⟩
    have hcov2 : ∀ x, covered t x → covered (l1 ++ l2) x := by
      intro x hx
      rcases (covered_iff t x).mp hx with ⟨q, hq, hxq⟩
      have hxm : covered (r :: t) x :=
        (covered_iff _ _).mpr ⟨q, List.mem_cons_of_mem _ hq, hxq⟩
      have hxl' := hcov x hxm
      have hcovB : cov x B = 0 := by
        rw [cov_eq_zero_iff]
        intro hxB2
        have hpq : 0 < q.2 := hpos q (List.mem_cons_of_mem _ hq)
        have hrq : blocksDisjoint r q := (List.pairwise_cons.mp hdisj).1 q hq
        unfold blocksDisjoint at hrq
        rcases hrq with h | h
        · omega
        · have hqend : covered (l1 ++ B :: l2) (q.1 + q.2) :=
            (covered_iff _ _).mpr ⟨B, hB, by omega⟩
          exact hends q (List.mem_cons_of_mem _ hq) hqend
      unfold covered at hxl' ⊢
      rw [hcount x] at hxl'
      omega
    have hends2 : ∀ b ∈ t, ¬ covered (l1 ++ l2) (b.1 + b.2) := by
      intro b hb hcv
      apply hends b (List.mem_cons_of_mem _ hb)
      refine covered_of_le_covList ?_ hcv
      rw [hcount]
      omega
    have IH := minimal_cover t
      (fun b hb => hpos b (List.mem_cons_of_mem _ hb))
      (List.pairwise_cons.mp hdisj).2
      (fun p hp q hq => hadj p (List.mem_cons_of_mem _ hp) q (List.mem_cons_of_mem _ hq))
      (l1 ++ l2) hcov2 hends2
    have hlen : (l1 ++ B :: l2).length = (l1 ++ l2).length + 1 := by
      simp [List.length_append]
      omega
    simp only [List.length_cons, hlen]
    omega

/-- A disjoint, positive, non-adjacent region list is a minimal-cardinality
description of the addresses it covers. -/
theorem minimal_cover_of_sameCover (m l' : List Block)
    (hpos : ∀ b ∈ m, 0 < b.2) (hdisj : m.Pairwise blocksDisjoint)
    (hadj : noAdjacent m) (hsame : ∀ x, covered l' x ↔ covered m x) :
    m.length ≤ l'.length :=
  minimal_cover m hpos hdisj hadj l' (fun x hx => (hsame x).mpr hx)
    (fun b hb hcv => ends_uncovered m hpos hdisj hadj b hb ((hsame _).mp hcv))

/-! Unfolding equations for `allocate` and `free`, and simple frame facts. -/

theorem allocate_none_eq (s : AllocState) (size : Int) (alg : Alg)
    (hf : findBlock alg size s.free_blocks = none) :
    allocate s size alg = (none, s) := by
  unfold allocate
  rw [hf]

theorem allocate_some_eq (s : AllocState) (size : Int) (alg : Alg) (i : Nat)
    (st bsz : Int) (hf : findBlock alg size s.free_blocks = some (i, st, bsz)) :
    allocate s size alg =
      (some s.next_id,
        { s with
            free_blocks := s.free_blocks.eraseIdx i ++
              (if 0 < bsz - size then [(st + size, bsz - size)] else [])
            allocations := dictInsert s.next_id (st, size) s.allocations
            next_id := s.next_id + 1 }) := by
  unfold allocate
  rw [hf]
  by_cases h : 0 < bsz - size <;> simp [h]

theorem free_none_eq (s : AllocState) (alloc_id : Nat)
    (hg : dictGet alloc_id s.allocations = none) :
    free s alloc_id = (false, s) := by
  unfold free
  rw [hg]

theorem free_some_eq (s : AllocState) (alloc_id : Nat) (b : Block)
    (hg : dictGet alloc_id s.allocations = some b) :
    free s alloc_id =
      (true,
        { s with
            allocations := dictPop alloc_id s.allocations
            free_blocks := mergeBlocks (s.free_blocks ++ [b]) }) := by
  unfold free
  rw [hg]

theorem allocate_total (s : AllocState) (size : Int) (alg : Alg) :
    (allocate s size alg).2.total = s.total := by
  cases hf : findBlock alg size s.free_blocks with
  | none => rw [allocate_none_eq s size alg hf]
  | some r =>
    obtain ⟨i, st, bsz⟩ := r
    rw [allocate_some_eq s size alg i st bsz hf]

theorem free_total (s : AllocState) (alloc_id : Nat) :
    (free s alloc_id).2.total = s.total := by
  cases hg : dictGet alloc_id s.allocations with
  | none => rw [free_none_eq s alloc_id hg]
  | some b => rw [free_some_eq s alloc_id b hg]

theorem applyOp_total (s : AllocState) (op : Op) : (applyOp s op).total = s.total := by
  cases op with
  | alloc size alg => exact allocate_total s size alg
  | free i => exact free_total s i

theorem run_total : ∀ (ops : List Op) (s : AllocState), (run s ops).total = s.total
  | [], _ => rfl
  | op :: t, s => by
    show (run (applyOp s op) t).total = s.total
    rw [run_total t (applyOp s op), applyOp_total]

/-! Helper equalities between the two views of the allocation intervals. -/

theorem covAlloc_eq (x : Int) (al : List (Nat × Block)) :
    covList x (al.map Prod.snd) = (al.map fun p => cov x p.2).sum := by
  unfold covList
  rw [List.map_map]
  rfl

theorem sumAlloc_eq (al : List (Nat × Block)) :
    sumSizes (al.map Prod.snd) = (al.map fun p => p.2.2).sum := by
  unfold sumSizes
  rw [List.map_map]
  rfl

/-! Consequences of the invariant. -/

theorem Inv.covLeOne {s : AllocState} (h : Inv s) :
    ∀ x, covList x (allBlocks s) ≤ 1 := by
  intro x
  rw [h.count]
  split <;> omega

theorem Inv.freeCovLeOne {s : AllocState} (h : Inv s) :
    ∀ x, covList x s.free_blocks ≤ 1 := by
  intro x
  have h1 := h.covLeOne x
  unfold allBlocks at h1
  rw [covList_append] at h1
  omega

theorem Inv.freeDisjoint {s : AllocState} (h : Inv s) :
    s.free_blocks.Pairwise blocksDisjoint :=
  pairwiseDisjoint_of_covList_le_one _ h.freeCovLeOne h.freePos

/-- The invariant holds in a freshly constructed arena of positive capacity. -/
theorem inv_init (total : Int) (h : 0 < total) : Inv (initState total) := by
  constructor
  · intro x
    show covList x ([((0 : Int), total)] ++ ([] : List (Nat × Block)).map Prod.snd) =
      if 0 ≤ x ∧ x < total then 1 else 0
    rw [List.map_nil, List.append_nil, covList_cons, covList_nil, cov]
    split_ifs <;> omega
  · intro b hb
    rcases List.mem_cons.mp hb with hb | hb
    · rw [hb]; exact h
    · cases hb
  · intro p hp; cases hp
  · show sumSizes ([((0 : Int), total)] ++ ([] : List (Nat × Block)).map Prod.snd) = total
    rw [List.map_nil, List.append_nil, sumSizes_cons, sumSizes_nil]
    ring
  · intro p hp; cases hp
  · intro p hp q hq
    rcases List.mem_cons.mp hp with hp | hp
    · rcases List.mem_cons.mp hq with hq | hq
      · rw [hp, hq]; show 0 + total ≠ 0; omega
      · cases hq
    · cases hp

theorem covList_allBlocks (s : AllocState) (x : Int) :
    covList x (allBlocks s) = covList x s.free_blocks + covList x (allocBlocks s) := by
  unfold allBlocks
  rw [covList_append]

theorem sumSizes_allBlocks (s : AllocState) :
    sumSizes (allBlocks s) = sumSizes s.free_blocks + sumSizes (allocBlocks s) := by
  unfold allBlocks
  rw [sumSizes_append]

/-- `allocate` with a positive size preserves the invariant. -/
theorem inv_allocate (s : AllocState) (hI : Inv s) (size : Int) (alg : Alg)
    (hsz : 0 < size) : Inv (allocate s size alg).2 := by
  cases hf : findBlock alg size s.free_blocks with
  | none => rw [allocate_none_eq s size alg hf]; exact hI
  | some r =>
    obtain ⟨i, st, bsz⟩ := r
    obtain ⟨hget, hq⟩ := findBlock_valid hf
    rw [allocate_some_eq s size alg i st bsz hf]
    have hbszpos : 0 < bsz := lt_of_lt_of_le hsz hq
    have hmem : (st, bsz) ∈ s.free_blocks := mem_of_get? hget
    have hfresh : ∀ p ∈ s.allocations, p.1 ≠ s.next_id :=
      fun p hp => Nat.ne_of_lt (hI.keysLt p hp)
    have hins : dictInsert s.next_id (st, size) s.allocations =
        s.allocations ++ [(s.next_id, (st, size))] := dictInsert_fresh hfresh
    have hdisjo : ∀ o ∈ s.free_blocks.eraseIdx i, blocksDisjoint o (st, bsz) := by
      intro o ho
      rcases get?_of_mem_eraseIdx _ i o ho with ⟨j, hji, hj⟩
      by_contra hnd
      unfold blocksDisjoint at hnd
      push_neg at hnd
      have hpo : 0 < o.2 := hI.freePos o (mem_of_get? hj)
      have hco : cov (max o.1 st) o = 1 := (cov_eq_one_iff _ _).mpr (by omega)
      have hcb : cov (max o.1 st) (st, bsz) = 1 := (cov_eq_one_iff _ _).mpr (by
        show st ≤ max o.1 st ∧ max o.1 st < st + bsz
        omega)
      have h2 := two_le_covList (max o.1 st) s.free_blocks j i o (st, bsz) hji hj hget hco hcb
      have h1 := hI.freeCovLeOne (max o.1 st)
      omega
    have hcr : ∀ x, covList x (if 0 < bsz - size then [(st + size, bsz - size)] else []) =
        cov x (st + size, bsz - size) := by
      intro x
      split_ifs with h
      · rw [covList_cons, covList_nil]
        omega
      · rw [covList_nil]
        symm
        rw [cov_eq_zero_iff]
        show ¬(st + size ≤ x ∧ x < st + size + (bsz - size))
        omega
    have hsplit : ∀ x, cov x (st, bsz) = cov x (st, size) + cov x (st + size, bsz - size) := by
      intro x
      have h := cov_split x st size (bsz - size) (le_of_lt hsz) (by omega)
      rwa [show size + (bsz - size) = bsz from by ring] at h
    refine ⟨?_, ?_, ?_, ?_, ?_, ?_⟩
    · intro x
      rw [covList_allBlocks]
      dsimp only [allocBlocks]
      rw [hins, covList_append, hcr x, List.map_append, covList_append]
      have h0 : covList x s.free_blocks =
          covList x (s.free_blocks.eraseIdx i) + cov x (st, bsz) :=
        covList_eraseIdx x _ i _ hget
      have hold := hI.count x
      rw [covList_allBlocks] at hold
      have hone : covList x ([((st : Int), (size : Int))] : List Block) = cov x (st, size) := by
        rw [covList_cons, covList_nil]
        omega
      show covList x (s.free_blocks.eraseIdx i) + cov x (st + size, bsz - size) +
          (covList x (allocBlocks s) + covList x ([(st, size)] : List Block)) =
          if 0 ≤ x ∧ x < s.total then 1 else 0
      rw [hone, ← hold, h0]
      have := hsplit x
      omega
    · intro b hb
      rcases List.mem_append.mp hb with hb | hb
      · exact hI.freePos b (List.eraseIdx_subset _ _ hb)
      · split_ifs at hb with h
        · rcases List.mem_cons.mp hb with hb | hb
          · rw [hb]; omega
          · cases hb
        · cases hb
    · intro p hp
      rw [hins] at hp
      rcases List.mem_append.mp hp with hp | hp
      · exact hI.allocPos p hp
      · rcases List.mem_cons.mp hp with hp | hp
        · rw [hp]; exact hsz
        · cases hp
    · rw [sumSizes_allBlocks]
      dsimp only [allocBlocks]
      rw [hins, List.map_append, sumSizes_append, sumSizes_append]
      have h0 : sumSizes s.free_blocks =
          sumSizes (s.free_blocks.eraseIdx i) + bsz :=
        sumSizes_eraseIdx _ i _ hget
      have hold := hI.sumEq
      rw [sumSizes_allBlocks] at hold
      have hrem : sumSizes (if 0 < bsz - size then [(st + size, bsz - size)] else []) =
          bsz - size := by
        split_ifs with h
        · rw [sumSizes_cons, sumSizes_nil]; ring
        · rw [sumSizes_nil]; omega
      show sumSizes (s.free_blocks.eraseIdx i) +
          sumSizes (if 0 < bsz - size then [(st + size, bsz - size)] else []) +
          (sumSizes (allocBlocks s) + sumSizes ([((st : Int), (size : Int))] : List Block)) =
          s.total
      rw [hrem, show sumSizes ([((st : Int), (size : Int))] : List Block) = size from by
        rw [sumSizes_cons, sumSizes_nil]; ring]
      omega
    · intro p hp
      rw [hins] at hp
      rcases List.mem_append.mp hp with hp | hp
      · have := hI.keysLt p hp
        show p.1 < s.next_id + 1
        omega
      · rcases List.mem_cons.mp hp with hp | hp
        · rw [hp]; show s.next_id < s.next_id + 1; omega
        · cases hp
    · intro p hp q hq
      have hsub : ∀ o, o ∈ s.free_blocks.eraseIdx i ++
          (if 0 < bsz - size then [(st + size, bsz - size)] else []) →
          o ∈ s.free_blocks.eraseIdx i ∨ (o = (st + size, bsz - size) ∧ 0 < bsz - size) := by
        intro o ho
        rcases List.mem_append.mp ho with ho | ho
        · exact Or.inl ho
        · split_ifs at ho with h
          · rcases List.mem_cons.mp ho with ho | ho
            · exact Or.inr ⟨ho, h⟩
            · cases ho
          · cases ho
      rcases hsub p hp with hp' | ⟨hp', hrem⟩ <;> rcases hsub q hq with hq' | ⟨hq', hrem'⟩
      · exact hI.nonadj p (List.eraseIdx_subset _ _ hp') q (List.eraseIdx_subset _ _ hq')
      · have hd := hdisjo p hp'
        have hpp : 0 < p.2 := hI.freePos p (List.eraseIdx_subset _ _ hp')
        unfold blocksDisjoint at hd
        rw [hq']
        show p.1 + p.2 ≠ st + size
        omega
      · have hold := hI.nonadj (st, bsz) hmem q (List.eraseIdx_subset _ _ hq')
        rw [hp']
        show st + size + (bsz - size) ≠ q.1
        have : st + bsz ≠ q.1 := hold
        omega
      · rw [hp', hq']
        show st + size + (bsz - size) ≠ st + size
        omega

/-- `free` preserves the invariant. -/
theorem inv_free (s : AllocState) (hI : Inv s) (alloc_id : Nat) :
    Inv (free s alloc_id).2 := by
  cases hg : dictGet alloc_id s.allocations with
  | none => rw [free_none_eq s alloc_id hg]; exact hI
  | some b =>
    rw [free_some_eq s alloc_id b hg]
    have hmem : (alloc_id, b) ∈ s.allocations := dictGet_mem hg
    have hbpos : 0 < b.2 := hI.allocPos _ hmem
    have hbmem2 : b ∈ allocBlocks s := List.mem_map_of_mem Prod.snd hmem
    have hpos0 : ∀ b' ∈ s.free_blocks ++ [b], 0 < b'.2 := by
      intro b' hb'
      rcases List.mem_append.mp hb' with h | h
      · exact hI.freePos b' h
      · rcases List.mem_cons.mp h with h | h
        · rw [h]; exact hbpos
        · cases h
    have hcov0 : ∀ x, covList x (s.free_blocks ++ [b]) ≤ 1 := by
      intro x
      rw [covList_append, covList_cons, covList_nil]
      have h1 := hI.covLeOne x
      rw [covList_allBlocks] at h1
      have h2 : cov x b ≤ covList x (allocBlocks s) := cov_le_covList x b hbmem2
      omega
    refine ⟨?_, ?_, ?_, ?_, ?_, ?_⟩
    · intro x
      rw [covList_allBlocks]
      dsimp only [allocBlocks]
      have hm := mergeBlocks_covList x (s.free_blocks ++ [b])
        fun b' hb' => le_of_lt (hpos0 b' hb')
      rw [hm, covList_append, covList_cons, covList_nil]
      have hpop := dictPop_mapSum (fun p => cov x p.2) hg
      dsimp only at hpop
      have e1 : covList x ((dictPop alloc_id s.allocations).map Prod.snd) =
          ((dictPop alloc_id s.allocations).map fun p => cov x p.2).sum := covAlloc_eq x _
      have e2 : covList x (allocBlocks s) =
          (s.allocations.map fun p => cov x p.2).sum := covAlloc_eq x _
      have hold := hI.count x
      rw [covList_allBlocks] at hold
      rw [e1]
      omega
    · exact mergeBlocks_pos _ hpos0
    · intro p hp
      exact hI.allocPos p (dictPop_sub hp)
    · rw [sumSizes_allBlocks]
      dsimp only [allocBlocks]
      rw [mergeBlocks_sumSizes, sumSizes_append, sumSizes_cons, sumSizes_nil]
      have hpop := dictPop_mapSum (fun p => p.2.2) hg
      dsimp only at hpop
      have e1 : sumSizes ((dictPop alloc_id s.allocations).map Prod.snd) =
          ((dictPop alloc_id s.allocations).map fun p => p.2.2).sum := sumAlloc_eq _
      have e2 : sumSizes (allocBlocks s) =
          (s.allocations.map fun p => p.2.2).sum := sumAlloc_eq _
      have hold := hI.sumEq
      rw [sumSizes_allBlocks] at hold
      rw [e1]
      omega
    · intro p hp
      have := hI.keysLt p (dictPop_sub hp)
      exact this
    · exact mergeBlocks_noadj _ hpos0 hcov0

theorem inv_applyOp (s : AllocState) (hI : Inv s) (op : Op) (hop : opOk op) :
    Inv (applyOp s op) := by
  cases op with
  | alloc size alg => exact inv_allocate s hI size alg hop
  | free i => exact inv_free s hI i

theorem inv_run :
    ∀ (ops : List Op) (s : AllocState), Inv s → (∀ op ∈ ops, opOk op) →
      Inv (run s ops)
  | [], _, hI, _ => hI
  | op :: t, s, hI, hops =>
    inv_run t (applyOp s op)
      (inv_applyOp s hI op (hops op (List.mem_cons_self _ _)))
      fun o ho => hops o (List.mem_cons_of_mem _ ho)

/-- Every state reached from a fresh arena by positive-size allocations and
frees satisfies the invariant. -/
theorem inv_reachable (total : Int) (h0 : 0 < total) (ops : List Op)
    (hops : ∀ op ∈ ops, opOk op) : Inv (run (initState total) ops) :=
  inv_run ops (initState total) (inv_init total h0) hops

/-! Set-level readings of the counting invariant. -/

theorem pairwise_toSet_disjoint :
    ∀ (l : List Block), (∀ x, covList x l ≤ 1) →
      l.Pairwise fun a b => Disjoint (toSet a) (toSet b)
  | [], _ => List.Pairwise.nil
  | a :: t, h1 => by
    refine List.pairwise_cons.mpr ⟨?_, ?_⟩
    · intro b hb
      rw [Set.disjoint_left]
      intro x hxa hxb
      rw [toSet, Set.mem_Ico] at hxa hxb
      have hca : cov x a = 1 := (cov_eq_one_iff x a).mpr hxa
      have hcb : cov x b = 1 := (cov_eq_one_iff x b).mpr hxb
      have h2 := cov_le_covList x b hb
      have h3 := h1 x
      rw [covList_cons] at h3
      omega
    · exact pairwise_toSet_disjoint t fun x => by
        have := h1 x
        rw [covList_cons] at this
        omega

theorem union_toSet (l : List Block) (total : Int)
    (h : ∀ x, covList x l = if 0 ≤ x ∧ x < total then 1 else 0) :
    (⋃ b ∈ l, toSet b) = Set.Ico 0 total := by
  ext x
  simp only [Set.mem_iUnion, Set.mem_Ico, toSet, exists_prop]
  constructor
  · rintro ⟨b, hb, hxb⟩
    have hcv : covered l x := (covered_iff l x).mpr ⟨b, hb, Set.mem_Ico.mp hxb⟩
    have hx := h x
    unfold covered at hcv
    by_contra hc
    rw [if_neg hc] at hx
    omega
  · intro hx0
    have hx := h x
    rw [if_pos hx0] at hx
    have hcv : covered l x := by unfold covered; omega
    rcases (covered_iff l x).mp hcv with ⟨b, hb, hxb⟩
    exact ⟨b, hb, Set.mem_Ico.mpr hxb⟩

theorem covList_le_one_of_pairwise :
    ∀ (l : List Block), l.Pairwise blocksDisjoint → ∀ x, covList x l ≤ 1
  | [], _, x => by rw [covList_nil]; omega
  | a :: t, hp, x => by
    rw [covList_cons]
    have ht := covList_le_one_of_pairwise t (List.pairwise_cons.mp hp).2 x
    by_cases hca : cov x a = 1
    · have h0 : covList x t = 0 := by
        by_contra h
        have hcv : covered t x := by unfold covered; omega
        rcases (covered_iff t x).mp hcv with ⟨b, hb, hxb⟩
        have hd := (List.pairwise_cons.mp hp).1 b hb
        have hxa := (cov_eq_one_iff x a).mp hca
        unfold blocksDisjoint at hd
        omega
      omega
    · have := cov_le_one x a
      omega

instance (l : List Block) : Decidable (noAdjacent l) := by
  unfold noAdjacent
  infer_instance

instance : DecidableRel blocksDisjoint := fun a b => by
  unfold blocksDisjoint
  infer_instance

/-! State effect of `evaluate_algorithm`: the workload is run on the arena
but the saved copies are written back and coalesced at the end. -/

theorem evalStep_state (alg : Alg) (acc : AllocState × Nat × Nat × Nat) (r : RandStep) :
    (evalStep alg acc r).1 =
      if r.coin || acc.1.allocations.isEmpty then (allocate acc.1 r.size alg).2
      else (free acc.1 ((acc.1.allocations.map Prod.fst).getD
        (r.pick % (acc.1.allocations.map Prod.fst).length) 0)).2 := by
  unfold evalStep
  dsimp only
  split_ifs with h
  · rcases hal : allocate acc.1 r.size alg with ⟨res, s2⟩
    cases res with
    | none => rfl
    | some i =>
      dsimp only
      split_ifs <;> rfl
  · rfl

theorem evalStep_total (alg : Alg) (acc : AllocState × Nat × Nat × Nat) (r : RandStep) :
    (evalStep alg acc r).1.total = acc.1.total := by
  rw [evalStep_state]
  split_ifs with h
  · exact allocate_total acc.1 r.size alg
  · exact free_total acc.1 _

theorem foldl_evalStep_total (alg : Alg) :
    ∀ (rand : List RandStep) (acc : AllocState × Nat × Nat × Nat),
      (rand.foldl (evalStep alg) acc).1.total = acc.1.total
  | [], _ => rfl
  | r :: t, acc => by
    show (t.foldl (evalStep alg) (evalStep alg acc r)).1.total = acc.1.total
    rw [foldl_evalStep_total alg t (evalStep alg acc r), evalStep_total]

/-- Regardless of the workload outcome, `evaluate_algorithm` ends by writing
back the saved allocation table, free list and id counter, and then
coalescing the written-back free list. -/
theorem evaluate_algorithm_state (s : AllocState) (alg : Alg) (rand : List RandStep) :
    (evaluate_algorithm s alg rand).2 =
      { s with free_blocks := mergeBlocks s.free_blocks } := by
  cases s with
  | mk total fb al ni =>
    unfold evaluate_algorithm
    dsimp only
    have htot := foldl_evalStep_total alg rand (AllocState.mk total fb al ni, 0, 0, 0)
    dsimp only at htot
    rw [htot]

theorem evaluate_preserves_once (s : AllocState)
    (hpos : ∀ b ∈ s.free_blocks, 0 < b.2)
    (hdisj : s.free_blocks.Pairwise blocksDisjoint)
    (hadj : noAdjacent s.free_blocks) (alg : Alg) (rand : List RandStep) :
    get_stats (evaluate_algorithm s alg rand).2 = get_stats s ∧
    (evaluate_algorithm s alg rand).2.next_id = s.next_id ∧
    ((evaluate_algorithm s alg rand).2.free_blocks).Perm s.free_blocks ∧
    (evaluate_algorithm s alg rand).2.allocations = s.allocations := by
  have hcov := covList_le_one_of_pairwise _ hdisj
  have hperm : (mergeBlocks s.free_blocks).Perm s.free_blocks :=
    mergeBlocks_perm_of_noadj _ hpos hcov hadj
  rw [evaluate_algorithm_state]
  refine ⟨?_, rfl, hperm, rfl⟩
  unfold get_stats
  dsimp only [allocBlocks]
  rw [mergeBlocks_sumSizes, hperm.length_eq]

theorem evaluate_preserves_aux :
    ∀ (calls : List (Alg × List RandStep)) (s : AllocState),
      (∀ b ∈ s.free_blocks, 0 < b.2) → s.free_blocks.Pairwise blocksDisjoint →
      noAdjacent s.free_blocks →
      get_stats (runEvals s calls) = get_stats s ∧
        (runEvals s calls).next_id = s.next_id
  | [], _, _, _, _ => ⟨rfl, rfl⟩
  | c :: t, s, hpos, hdisj, hadj => by
    obtain ⟨hst, hni, hperm, hal⟩ := evaluate_preserves_once s hpos hdisj hadj c.1 c.2
    have hpos1 : ∀ b ∈ (evaluate_algorithm s c.1 c.2).2.free_blocks, 0 < b.2 :=
      fun b hb => hpos b (hperm.subset hb)
    have hdisj1 : (evaluate_algorithm s c.1 c.2).2.free_blocks.Pairwise blocksDisjoint :=
      (hperm.pairwise_iff fun h => Or.symm h).mpr hdisj
    have hadj1 : noAdjacent (evaluate_algorithm s c.1 c.2).2.free_blocks :=
      fun p hp q hq => hadj p (hperm.subset hp) q (hperm.subset hq)
    have IH := evaluate_preserves_aux t (evaluate_algorithm s c.1 c.2).2 hpos1 hdisj1 hadj1
    constructor
    · show get_stats (runEvals (evaluate_algorithm s c.1 c.2).2 t) = get_stats s
      rw [IH.1, hst]
    · show (runEvals (evaluate_algorithm s c.1 c.2).2 t).next_id = s.next_id
      rw [IH.2, hni]

/-! Claim theorems. -/

/-- C1: the best-fit branch of `allocate` does not select the smallest
qualifying free block.  With free blocks `[(0, 50), (60, 10)]` and request
size 5, both blocks qualify and the smaller one is `(60, 10)` (size `10 < 50`),
yet the scan returns the block of size 50 at index 0: the source compares the
candidate's size against `best[1]` — the incumbent's start address — instead
of `best[2]`, its size (the worst-fit branch uses `best[2]` correctly).  The
returned allocation therefore sits at start 0 inside the 50-block. -/
theorem best_fit_start_size_confusion :
    findBlock Alg.best 5 [((0 : Int), (50 : Int)), (60, 10)] = some (0, 0, 50) ∧
    ((60 : Int), (10 : Int)) ∈ [((0 : Int), (50 : Int)), (60, 10)] ∧
    (5 : Int) ≤ 10 ∧ (10 : Int) < 50 ∧
    allocate
      { total := 100, free_blocks := [(0, 50), (60, 10)], allocations := [],
        next_id := 1 } 5 Alg.best =
      (some 1,
        { total := 100, free_blocks := [(60, 10), (5, 45)],
          allocations := [(1, (0, 5))], next_id := 2 }) := by
  decide

/-- C4: when no free block is large enough, `allocate` returns `NONE` under
both strategies and the state — free list, allocation table and id counter —
is returned unchanged. -/
theorem allocate_no_fit_fails (s : AllocState) (size : Int) (hsz : 0 < size)
    (hno : ∀ b ∈ s.free_blocks, b.2 < size) :
    allocate s size Alg.best = (none, s) ∧ allocate s size Alg.worst = (none, s) :=
  ⟨allocate_none_eq s size Alg.best (bestScan_none size s.free_blocks 0 hno),
   allocate_none_eq s size Alg.worst (worstScan_none size s.free_blocks 0 hno)⟩

theorem allocate_no_fit_fails_witness :
    (0 : Int) < 20 ∧ (∀ b ∈ (initState 10).free_blocks, b.2 < 20) ∧
    (allocate (initState 10) 20 Alg.best = (none, initState 10) ∧
      allocate (initState 10) 20 Alg.worst = (none, initState 10)) :=
  ⟨by decide, by decide, allocate_no_fit_fails (initState 10) 20 (by decide) (by decide)⟩

/-- C5: `free(id)` returns `true` exactly when `id` is a live allocation;
on `false` the state is returned unchanged, and on `true` the allocation is
removed, its block is appended to the free list, and the coalescing pass is
run on the result. -/
theorem free_returns_iff_live (s : AllocState) (alloc_id : Nat) :
    ((free s alloc_id).1 = dictMem alloc_id s.allocations) ∧
    (dictGet alloc_id s.allocations = none → free s alloc_id = (false, s)) ∧
    (∀ b, dictGet alloc_id s.allocations = some b →
      free s alloc_id =
        (true,
          { s with
              allocations := dictPop alloc_id s.allocations
              free_blocks := mergeBlocks (s.free_blocks ++ [b]) })) := by
  refine ⟨?_, free_none_eq s alloc_id, fun b => free_some_eq s alloc_id b⟩
  rw [dictMem_eq_isSome]
  cases hg : dictGet alloc_id s.allocations with
  | none => rw [free_none_eq s alloc_id hg]; rfl
  | some b => rw [free_some_eq s alloc_id b hg]; rfl

theorem free_returns_iff_live_witness :
    ((free (initState 100) 1).1 = dictMem 1 (initState 100).allocations) ∧
    (dictGet 1 (initState 100).allocations = none → free (initState 100) 1 =
      (false, initState 100)) ∧
    (∀ b, dictGet 1 (initState 100).allocations = some b →
      free (initState 100) 1 =
        (true,
          { initState 100 with
              allocations := dictPop 1 (initState 100).allocations
              free_blocks := mergeBlocks ((initState 100).free_blocks ++ [b]) })) :=
  free_returns_iff_live (initState 100) 1

/-- States of the capacity-100 scenario of the specification. -/
def scenarioS0 : AllocState := initState 100

/-- First scenario step: `allocate(30, best-fit)`. -/
def scenarioA1 : Option Nat × AllocState := allocate scenarioS0 30 Alg.best

/-- Second scenario step: `allocate(40, best-fit)`. -/
def scenarioA2 : Option Nat × AllocState := allocate scenarioA1.2 40 Alg.best

/-- Third scenario step: `free(1)`. -/
def scenarioF : Bool × AllocState := free scenarioA2.2 1

/-- Fourth scenario step: `allocate(30, worst-fit)`. -/
def scenarioA3 : Option Nat × AllocState := allocate scenarioF.2 30 Alg.worst

/-- C8: the scenario on a fresh arena of capacity 100 returns ids 1, 2,
`true`, 3; the free lists after the first three steps are `[(30,70)]`,
`[(70,30)]` and `[(0,30),(70,30)]`; the last call places allocation 3 in a
size-30 block (at start 0) and `used` becomes 70. -/
theorem scenario_capacity_100 :
    scenarioA1.1 = some 1 ∧ scenarioA1.2.free_blocks = [(30, 70)] ∧
    scenarioA2.1 = some 2 ∧ scenarioA2.2.free_blocks = [(70, 30)] ∧
    scenarioF.1 = true ∧ scenarioF.2.free_blocks = [(0, 30), (70, 30)] ∧
    scenarioA3.1 = some 3 ∧ dictGet 3 scenarioA3.2.allocations = some (0, 30) ∧
    (get_stats scenarioA3.2).used = 70 := by
  decide

/-- C10: `allocate` performs no validation of its size argument: for any
non-positive size, any arena whose free list holds at least one genuine
(positive-size) region hands out a fresh id under either strategy and
records an allocation of that non-positive size. -/
theorem allocate_nonpositive_size_succeeds (s : AllocState) (size : Int)
    (hsz : size ≤ 0) (hne : s.free_blocks ≠ [])
    (hpos : ∀ b ∈ s.free_blocks, 0 < b.2) (alg : Alg) :
    (allocate s size alg).1 = some s.next_id ∧
    ∃ st, dictGet s.next_id (allocate s size alg).2.allocations = some (st, size) := by
  have hex : ∃ b ∈ s.free_blocks, size ≤ b.2 := by
    cases hfb : s.free_blocks with
    | nil => exact absurd hfb hne
    | cons b t =>
      have hb : b ∈ s.free_blocks := by rw [hfb]; exact List.mem_cons_self _ _
      exact ⟨b, List.mem_cons_self _ _, by have := hpos b hb; omega⟩
  have hsome : ∃ r, findBlock alg size s.free_blocks = some r := by
    cases alg with
    | best => exact bestScan_some_of_qual size s.free_blocks 0 none hex
    | worst => exact worstScan_some_of_qual size s.free_blocks 0 none hex
  rcases hsome with ⟨⟨i, st, bsz⟩, hf⟩
  rw [allocate_some_eq s size alg i st bsz hf]
  exact ⟨rfl, st, dictGet_insert_self s.next_id (st, size) s.allocations⟩

theorem allocate_nonpositive_size_succeeds_witness :
    ((-3 : Int) ≤ 0 ∧ (initState 100).free_blocks ≠ [] ∧
      (∀ b ∈ (initState 100).free_blocks, 0 < b.2)) ∧
    ((allocate (initState 100) (-3) Alg.best).1 = some (initState 100).next_id ∧
      ∃ st, dictGet (initState 100).next_id
        (allocate (initState 100) (-3) Alg.best).2.allocations = some (st, -3)) :=
  ⟨⟨by decide, by decide, by decide⟩,
    allocate_nonpositive_size_succeeds (initState 100) (-3) (by decide) (by decide)
      (by decide) Alg.best⟩

/-- C2: in every state reached from a fresh arena of positive capacity by
positive-size allocations and frees, the free regions and allocation
intervals are pairwise disjoint as address sets, their union is exactly
`[0, total)`, and consequently the snapshot satisfies `used + free = total`. -/
theorem partition_invariant_reachable (total : Int) (h0 : 0 < total)
    (ops : List Op) (hops : ∀ op ∈ ops, opOk op) :
    (allBlocks (run (initState total) ops)).Pairwise
      (fun a b => Disjoint (toSet a) (toSet b)) ∧
    (⋃ b ∈ allBlocks (run (initState total) ops), toSet b) = Set.Ico 0 total ∧
    (get_stats (run (initState total) ops)).used +
      (get_stats (run (initState total) ops)).free =
      (get_stats (run (initState total) ops)).total := by
  have hI := inv_reachable total h0 ops hops
  refine ⟨pairwise_toSet_disjoint _ hI.covLeOne, ?_, ?_⟩
  · have hu := union_toSet _ (run (initState total) ops).total hI.count
    have ht : (run (initState total) ops).total = total := run_total ops (initState total)
    rw [ht] at hu
    exact hu
  · have hs := hI.sumEq
    rw [sumSizes_allBlocks] at hs
    show sumSizes (allocBlocks (run (initState total) ops)) +
      sumSizes (run (initState total) ops).free_blocks = (run (initState total) ops).total
    omega

theorem partition_invariant_reachable_witness :
    ((0 : Int) < 100 ∧ ∀ op ∈ [Op.alloc 30 Alg.best, Op.free 1], opOk op) ∧
    ((allBlocks (run (initState 100) [Op.alloc 30 Alg.best, Op.free 1])).Pairwise
      (fun a b => Disjoint (toSet a) (toSet b)) ∧
      (⋃ b ∈ allBlocks (run (initState 100) [Op.alloc 30 Alg.best, Op.free 1]), toSet b) =
        Set.Ico 0 100 ∧
      (get_stats (run (initState 100) [Op.alloc 30 Alg.best, Op.free 1])).used +
        (get_stats (run (initState 100) [Op.alloc 30 Alg.best, Op.free 1])).free =
        (get_stats (run (initState 100) [Op.alloc 30 Alg.best, Op.free 1])).total) :=
  ⟨⟨by decide, by decide⟩, partition_invariant_reachable 100 (by decide) _ (by decide)⟩

/-- C3: with a positive request and at least one qualifying free block, the
worst-fit branch picks a qualifying block whose size is maximal among all
qualifying blocks, breaking ties by the first index in scan order, and the
post state removes that block, appends the split remainder (when positive),
records the allocation under a fresh id and bumps the counter. -/
theorem worst_fit_allocate_spec (s : AllocState) (size : Int) (hsz : 0 < size)
    (hex : ∃ b ∈ s.free_blocks, size ≤ b.2) :
    ∃ i st bsz,
      findBlock Alg.worst size s.free_blocks = some (i, st, bsz) ∧
      s.free_blocks.get? i = some (st, bsz) ∧
      size ≤ bsz ∧
      (∀ j b, s.free_blocks.get? j = some b → size ≤ b.2 → b.2 ≤ bsz) ∧
      (∀ j b, j < i → s.free_blocks.get? j = some b → size ≤ b.2 → b.2 < bsz) ∧
      allocate s size Alg.worst =
        (some s.next_id,
          { s with
              free_blocks := s.free_blocks.eraseIdx i ++
                (if 0 < bsz - size then [(st + size, bsz - size)] else [])
              allocations := dictInsert s.next_id (st, size) s.allocations
              next_id := s.next_id + 1 }) := by
  rcases worstScan_some_of_qual size s.free_blocks 0 none hex with ⟨r, hr⟩
  obtain ⟨i, st, bsz⟩ := r
  have hf : findBlock Alg.worst size s.free_blocks = some (i, st, bsz) := hr
  obtain ⟨hget, hq⟩ := findBlock_valid hf
  refine ⟨i, st, bsz, hf, hget, hq, ?_, ?_, allocate_some_eq s size Alg.worst i st bsz hf⟩
  · intro j b hj hqb
    exact worstScan_dom size s.free_blocks 0 none _ hr j b hj hqb
  · intro j b hjlt hj hqb
    have h1 := worstScan_first size s.free_blocks 0 none _ hr
      (fun b0 h => Option.noConfusion h) j b hj (by omega) hqb
    exact h1

/-- A concrete state with two equal-size qualifying blocks, used to witness
the worst-fit theorem. -/
def worstWitnessState : AllocState :=
  { total := 100, free_blocks := [(0, 30), (70, 30)], allocations := [], next_id := 5 }

theorem worst_fit_allocate_spec_witness :
    ((0 : Int) < 30 ∧ ∃ b ∈ worstWitnessState.free_blocks, (30 : Int) ≤ b.2) ∧
    (∃ i st bsz,
      findBlock Alg.worst 30 worstWitnessState.free_blocks = some (i, st, bsz) ∧
      worstWitnessState.free_blocks.get? i = some (st, bsz) ∧
      (30 : Int) ≤ bsz ∧
      (∀ j b, worstWitnessState.free_blocks.get? j = some b → (30 : Int) ≤ b.2 →
        b.2 ≤ bsz) ∧
      (∀ j b, j < i → worstWitnessState.free_blocks.get? j = some b →
        (30 : Int) ≤ b.2 → b.2 < bsz) ∧
      allocate worstWitnessState 30 Alg.worst =
        (some worstWitnessState.next_id,
          { worstWitnessState with
              free_blocks := worstWitnessState.free_blocks.eraseIdx i ++
                (if 0 < bsz - 30 then [(st + 30, bsz - 30)] else [])
              allocations := dictInsert worstWitnessState.next_id (st, 30)
                worstWitnessState.allocations
              next_id := worstWitnessState.next_id + 1 })) :=
  ⟨⟨by decide, by decide⟩,
    worst_fit_allocate_spec worstWitnessState 30 (by decide) (by decide)⟩

/-- C9: every reachable free list is maximally coalesced — no region ends
where another starts — and the snapshot's `fragments` count, which is the
length of the free list, is minimal among all interval lists covering the
same free addresses, i.e. it equals the number of maximal contiguous free
gaps. -/
theorem reachable_maximally_coalesced (total : Int) (h0 : 0 < total)
    (ops : List Op) (hops : ∀ op ∈ ops, opOk op) :
    noAdjacent (run (initState total) ops).free_blocks ∧
    (get_stats (run (initState total) ops)).fragments =
      (run (initState total) ops).free_blocks.length ∧
    (∀ l' : List Block,
      (∀ x, covered l' x ↔ covered (run (initState total) ops).free_blocks x) →
      (get_stats (run (initState total) ops)).fragments ≤ l'.length) := by
  have hI := inv_reachable total h0 ops hops
  refine ⟨hI.nonadj, rfl, ?_⟩
  intro l' hsame
  show (run (initState total) ops).free_blocks.length ≤ l'.length
  exact minimal_cover_of_sameCover _ l' hI.freePos hI.freeDisjoint hI.nonadj hsame

theorem reachable_maximally_coalesced_witness :
    ((0 : Int) < 100 ∧
      ∀ op ∈ [Op.alloc 30 Alg.best, Op.alloc 40 Alg.best, Op.free 1], opOk op) ∧
    (noAdjacent (run (initState 100)
        [Op.alloc 30 Alg.best, Op.alloc 40 Alg.best, Op.free 1]).free_blocks ∧
      (get_stats (run (initState 100)
        [Op.alloc 30 Alg.best, Op.alloc 40 Alg.best, Op.free 1])).fragments =
        (run (initState 100)
          [Op.alloc 30 Alg.best, Op.alloc 40 Alg.best, Op.free 1]).free_blocks.length ∧
      (∀ l' : List Block,
        (∀ x, covered l' x ↔ covered (run (initState 100)
          [Op.alloc 30 Alg.best, Op.alloc 40 Alg.best, Op.free 1]).free_blocks x) →
        (get_stats (run (initState 100)
          [Op.alloc 30 Alg.best, Op.alloc 40 Alg.best, Op.free 1])).fragments ≤
          l'.length)) :=
  ⟨⟨by decide, by decide⟩, reachable_maximally_coalesced 100 (by decide) _ (by decide)⟩

/-- C6 (amended): for every pairwise-disjoint list of positive-size free
regions, coalescing covers exactly the same addresses, yields a list of
minimal length among all interval lists with that coverage, leaves no two
regions adjacent, and is idempotent. -/
theorem merge_coalescing_spec (l : List Block)
    (hpos : ∀ b ∈ l, 0 < b.2) (hdisj : l.Pairwise blocksDisjoint) :
    (∀ x, covered (mergeBlocks l) x ↔ covered l x) ∧
    (∀ l' : List Block, (∀ x, covered l' x ↔ covered (mergeBlocks l) x) →
      (mergeBlocks l).length ≤ l'.length) ∧
    noAdjacent (mergeBlocks l) ∧
    mergeBlocks (mergeBlocks l) = mergeBlocks l := by
  have hcov := covList_le_one_of_pairwise l hdisj
  refine ⟨?_, ?_, mergeBlocks_noadj l hpos hcov, mergeBlocks_idem l hpos hcov⟩
  · intro x
    unfold covered
    rw [mergeBlocks_covList x l fun b hb => le_of_lt (hpos b hb)]
  · intro l' hsame
    exact minimal_cover_of_sameCover _ l' (mergeBlocks_pos l hpos)
      (pairwiseDisjoint_of_pairwise_gapLt
        (pairwise_gapLt_of_chain _ (mergeBlocks_chain l hpos hcov)
          (mergeBlocks_pos l hpos)))
      (mergeBlocks_noadj l hpos hcov) hsame

theorem merge_coalescing_spec_witness :
    ((∀ b ∈ [((0 : Int), (2 : Int)), (5, 3)], 0 < b.2) ∧
      ([((0 : Int), (2 : Int)), (5, 3)] : List Block).Pairwise blocksDisjoint) ∧
    ((∀ x, covered (mergeBlocks [((0 : Int), (2 : Int)), (5, 3)]) x ↔
        covered [((0 : Int), (2 : Int)), (5, 3)] x) ∧
      (∀ l' : List Block,
        (∀ x, covered l' x ↔ covered (mergeBlocks [((0 : Int), (2 : Int)), (5, 3)]) x) →
        (mergeBlocks [((0 : Int), (2 : Int)), (5, 3)]).length ≤ l'.length) ∧
      noAdjacent (mergeBlocks [((0 : Int), (2 : Int)), (5, 3)]) ∧
      mergeBlocks (mergeBlocks [((0 : Int), (2 : Int)), (5, 3)]) =
        mergeBlocks [((0 : Int), (2 : Int)), (5, 3)]) :=
  ⟨⟨by decide, by decide⟩, merge_coalescing_spec _ (by decide) (by decide)⟩

/-- C6 counterexample: the positive-size but overlapping region list
`[(0,2),(1,3),(2,1)]` is returned unchanged by the merge step; the result
still contains an adjacent pair (the region (0,2) ends at 2 where (2,1)
starts) and has three regions although the single region (0,4) covers the
same addresses, so on arbitrary region lists the merge result is neither
adjacency-free nor of minimal cardinality. -/
theorem merge_overlap_counterexample :
    mergeBlocks [((0 : Int), (2 : Int)), (1, 3), (2, 1)] = [(0, 2), (1, 3), (2, 1)] ∧
    (∀ b ∈ [((0 : Int), (2 : Int)), (1, 3), (2, 1)], 0 < b.2) ∧
    ¬ noAdjacent (mergeBlocks [((0 : Int), (2 : Int)), (1, 3), (2, 1)]) ∧
    (∀ x : Int, covered (mergeBlocks [((0 : Int), (2 : Int)), (1, 3), (2, 1)]) x ↔
      covered [((0 : Int), (4 : Int))] x) ∧
    ¬ (mergeBlocks [((0 : Int), (2 : Int)), (1, 3), (2, 1)]).length ≤
      ([((0 : Int), (4 : Int))] : List Block).length := by
  refine ⟨by decide, by decide, by decide, ?_, by decide⟩
  intro x
  rw [show mergeBlocks [((0 : Int), (2 : Int)), (1, 3), (2, 1)] =
    [((0 : Int), (2 : Int)), (1, 3), (2, 1)] from by decide]
  rw [covered_iff, covered_iff]
  constructor
  · rintro ⟨b, hb, hxb⟩
    refine ⟨(0, 4), List.mem_cons_self _ _, ?_⟩
    simp only [List.mem_cons, List.not_mem_nil, or_false] at hb
    rcases hb with hb | hb | hb <;> subst hb <;> simp only at hxb ⊢ <;>
      constructor <;> omega
  · rintro ⟨b, hb, hxb⟩
    simp only [List.mem_cons, List.not_mem_nil, or_false] at hb
    subst hb
    simp only at hxb
    by_cases hx : x < 2
    · refine ⟨(0, 2), List.mem_cons_self _ _, ?_⟩
      simp only
      omega
    · refine ⟨(1, 3), List.mem_cons_of_mem _ (List.mem_cons_self _ _), ?_⟩
      simp only
      omega

/-- C7 (amended): on any arena whose free list is pairwise disjoint with
positive sizes and no two adjacent regions — which holds for every reachable
state — any number of `evaluate_algorithm` calls, with any workload
outcomes, leaves every snapshot value and the id counter unchanged. -/
theorem evaluate_snapshot_preserved (s : AllocState)
    (hpos : ∀ b ∈ s.free_blocks, 0 < b.2)
    (hdisj : s.free_blocks.Pairwise blocksDisjoint)
    (hadj : noAdjacent s.free_blocks) (calls : List (Alg × List RandStep)) :
    get_stats (runEvals s calls) = get_stats s ∧
    (runEvals s calls).next_id = s.next_id :=
  evaluate_preserves_aux calls s hpos hdisj hadj

theorem evaluate_snapshot_preserved_witness :
    ((∀ b ∈ (initState 50).free_blocks, 0 < b.2) ∧
      (initState 50).free_blocks.Pairwise blocksDisjoint ∧
      noAdjacent (initState 50).free_blocks) ∧
    (get_stats (runEvals (initState 50)
        [(Alg.best, List.replicate 20 ⟨true, 60, 0⟩),
          (Alg.worst, List.replicate 20 ⟨true, 10, 0⟩)]) = get_stats (initState 50) ∧
      (runEvals (initState 50)
        [(Alg.best, List.replicate 20 ⟨true, 60, 0⟩),
          (Alg.worst, List.replicate 20 ⟨true, 10, 0⟩)]).next_id =
        (initState 50).next_id) :=
  ⟨⟨by decide, by decide, by decide⟩,
    evaluate_snapshot_preserved (initState 50) (by decide) (by decide) (by decide) _⟩

/-- An (unreachable) arena state whose free list holds two adjacent regions. -/
def adjacentState : AllocState :=
  { total := 20, free_blocks := [(0, 10), (10, 10)], allocations := [], next_id := 1 }

/-- C7 counterexample: on an arena state whose free list holds the two
adjacent regions (0,10) and (10,10), a single `evaluate_algorithm` call
(here a workload of 20 failing allocation requests) merges them during the
trailing coalescing pass, so `fragments` drops from 2 to 1 and the snapshot
is not identical to its pre-call value. -/
theorem evaluate_uncoalesced_counterexample :
    (get_stats adjacentState).fragments = 2 ∧
    (get_stats (runEvals adjacentState
        [(Alg.best, List.replicate 20 ⟨true, 30, 0⟩)])).fragments = 1 := by
  decide

end MemAlloc
